import Mathlib

/-!
Verification of the process-forest engine of the treetop repository.

The development shallowly embeds the core of the source:

* `src/tree.rs` — `Forest::new_forest`, `Forest::mk_forest`, `Forest::sort`,
  `Forest::compute_accumulate`, `Forest::filter`, `Forest::filter_helper`,
  `Forest::format_processes`, `Forest::format_helper`;
* `src/process.rs` — `Process::compare`, `SortBy`, `Process::accumulate_from`;
* `src/regex.rs` — `Regex::is_match`;
* `src/treetop_app.rs` — the `UiMode` state machine and the stale-selection
  check of `TreetopApp::update_processes`.

Rust `HashMap`s are modelled as association lists (`AMap`) whose iteration
order is never observed by the embedded code, matching the source, which
only ever inserts, looks up and removes map entries.  The `unwrap` inside
`Forest::mk_forest` (a potential panic) is modelled by an `Option` result;
the recursion of `mk_forest` is paced by a fuel argument that `new_forest`
instantiates with more fuel than the recursion can ever consume (each
descent into a children list first removes a node from the node map).
-/

namespace Treetop

/-- The `Tree` struct of `tree.rs`: one node plus an owned list of children. -/
inductive Tree (N : Type) : Type where
  | mk (node : N) (children : List (Tree N)) : Tree N

/-- A `Forest` is the list of root trees (struct `Forest(Vec<Tree<Node>>)`). -/
abbrev Forest (N : Type) : Type := List (Tree N)

def Tree.node {N : Type} : Tree N → N
  | .mk n _ => n

def Tree.children {N : Type} : Tree N → List (Tree N)
  | .mk _ c => c

/-- The capability interface of the `Node` trait in `tree.rs`: identifier,
optional parent identifier, sibling comparator, metric accumulation and the
two textual renderings used by `format_helper`. -/
structure NodeOps (N : Type) (I : Type) where
  id : N → I
  parent : N → Option I
  cmp : N → N → Ordering
  accumulateFrom : N → N → N
  tableData : N → String
  display : N → String

section Maps

variable {I A : Type} [DecidableEq I]

/-- Association-list model of `std::collections::HashMap`. -/
abbrev AMap (I A : Type) : Type := List (I × A)

/-- `HashMap::get`/`remove` lookup: the value stored at key `k`, if any. -/
def amLookup (m : AMap I A) (k : I) : Option A :=
  (List.find? (fun e => e.1 = k) m).map (fun e => e.2)

/-- Removal of key `k` (`HashMap::remove` forgetting the returned value). -/
def amErase (m : AMap I A) (k : I) : AMap I A :=
  List.filter (fun e => ¬ (e.1 = k)) m

/-- `HashMap::insert`: key `k` now maps to `v`, all other keys unchanged. -/
def amInsert (m : AMap I A) (k : I) (v : A) : AMap I A :=
  (k, v) :: amErase m k

/-- The keys of the map. -/
abbrev amKeys (m : AMap I A) : List I :=
  List.map (fun e => e.1) m

end Maps

section ForestCode

variable {N I : Type} [DecidableEq I]

/-- The loop of `Forest::new_forest` (tree.rs lines 56–66): partition the
input records into the node map, the parent-to-children map and the root
list, processing records in input order. -/
def new_forest_loop (ops : NodeOps N I) :
    List N → AMap I N × AMap I (List I) × List I → AMap I N × AMap I (List I) × List I
  | [], st => st
  | node :: rest, (nm, cm, roots) =>
    match ops.parent node with
    | some parent =>
      new_forest_loop ops rest
        (amInsert nm (ops.id node) node,
         amInsert cm parent (((amLookup cm parent).getD []) ++ [ops.id node]),
         roots)
    | none =>
      new_forest_loop ops rest
        (amInsert nm (ops.id node) node, cm, roots ++ [ops.id node])

/-- `Forest::mk_forest` (tree.rs lines 73–87).  For each root in order: take
its children list out of the children map (`remove(..).unwrap_or_default()`),
take its node out of the node map (`remove(..).unwrap()` — a panic, modelled
as `none`, when absent), build the subtree recursively, then continue with
the remaining roots on the shrunken maps.  The fuel only paces the
recursion; `new_forest` supplies strictly more fuel than the nesting depth,
which is bounded by the node-map size because every descent into a children
list is preceded by removing one node from the node map. -/
def mk_forest (ops : NodeOps N I) :
    Nat → AMap I N → AMap I (List I) → List I →
    Option (Forest N × AMap I N × AMap I (List I))
  | _, nm, cm, [] => some ([], nm, cm)
  | fuel, nm, cm, root :: rest =>
    match amLookup nm root with
    | none => none
    | some node =>
      if fuel = 0 then none
      else
        match mk_forest ops (fuel - 1) (amErase nm root) (amErase cm root)
            ((amLookup cm root).getD []) with
        | none => none
        | some (cf, nm2, cm2) =>
          match mk_forest ops fuel nm2 cm2 rest with
          | none => none
          | some (rf, nm3, cm3) => some (Tree.mk node cf :: rf, nm3, cm3)
  termination_by fuel _ _ roots => (fuel, roots.length)
  decreasing_by
  · apply Prod.Lex.left
    omega
  · apply Prod.Lex.right
    simp [List.length_cons]

/-- `Forest::compute_accumulate` (tree.rs lines 96–103): children first,
then fold every (already accumulated) child's node into the parent's node
with `accumulate_from`, in child order. -/
def compute_accumulate (ops : NodeOps N I) : Forest N → Forest N
  | [] => []
  | Tree.mk n cs :: rest =>
    Tree.mk
      ((compute_accumulate ops cs).foldl (fun acc c => ops.accumulateFrom acc c.node) n)
      (compute_accumulate ops cs)
    :: compute_accumulate ops rest

/-- `Forest::sort` (tree.rs lines 89–94): stably sort the sibling list with
the node comparator, then sort every tree's children recursively.  Rust's
stable `sort_by` is modelled by the stable `List.insertionSort` on the
reflexive relation `cmp a b ≠ Greater`. -/
def sort_forest (ops : NodeOps N I) (ts : Forest N) : Forest N :=
  (ts.insertionSort (fun a b => ops.cmp a.node b.node ≠ Ordering.gt)).attach.map
    (fun t => Tree.mk t.1.node (sort_forest ops t.1.children))
  termination_by sizeOf ts
  decreasing_by
    have h1 : t.1 ∈ ts := (List.perm_insertionSort _ ts).mem_iff.mp t.2
    have h2 : sizeOf t.1 < sizeOf ts := List.sizeOf_lt_of_mem h1
    have h3 : sizeOf t.1.children < sizeOf t.1 := by
      cases _h : t.1 with
      | mk n cs => simp only [Tree.children, Tree.mk.sizeOf_spec]; omega
    omega

/-- `Forest::new_forest` (tree.rs lines 52–71): build the maps, assemble the
forest, accumulate metrics, then sort.  `none` models the `unwrap` panic
inside `mk_forest`. -/
def new_forest (ops : NodeOps N I) (input : List N) : Option (Forest N) :=
  match new_forest_loop ops input ([], [], []) with
  | (nm, cm, roots) =>
    match mk_forest ops (input.length + 1) nm cm roots with
    | none => none
    | some (f, _, _) => some (sort_forest ops (compute_accumulate ops f))

/-- `HashSet::insert` on the included-identifier set; only membership in the
set is ever observed. -/
def insertId (x : I) (s : List I) : List I :=
  if x ∈ s then s else x :: s

/-- `Forest::filter_helper` (tree.rs lines 114–135).  Returns the grown
included set together with the `any_child_included` flag.  For each tree in
order: if the parent is included or the predicate matches, insert the node
and descend with the flag set; otherwise descend with the flag clear and
insert the node exactly when some descendant was included. -/
def filter_helper (ops : NodeOps N I) (pred : N → Bool) :
    Forest N → Bool → List I → List I × Bool
  | [], _, inc => (inc, false)
  | Tree.mk n cs :: rest, parentInc, inc =>
    if parentInc || pred n then
      ((filter_helper ops pred rest parentInc
          (filter_helper ops pred cs true (insertId (ops.id n) inc)).1).1, true)
    else
      if (filter_helper ops pred cs false inc).2 then
        ((filter_helper ops pred rest parentInc
            (insertId (ops.id n) (filter_helper ops pred cs false inc).1)).1, true)
      else
        filter_helper ops pred rest parentInc (filter_helper ops pred cs false inc).1

/-- `Forest::filter` (tree.rs lines 105–112): the included-identifier set. -/
def filter_ids (ops : NodeOps N I) (pred : N → Bool) (f : Forest N) : List I :=
  (filter_helper ops pred f false []).1

/-- Size bound used for the termination of the renderers: filtering a
sibling list only shrinks it. -/
def sizeOf_filter_le {N : Type} (p : Tree N → Bool) :
    ∀ l : List (Tree N), sizeOf (l.filter p) ≤ sizeOf l := fun l => by
  induction l with
  | nil => simp
  | cons t r ih =>
    simp only [List.filter_cons]
    split
    · simp only [List.cons.sizeOf_spec]; omega
    · simp only [List.cons.sizeOf_spec]; omega

/-- One output line of `format_helper` (tree.rs lines 164–174): table data,
separator, ancestor continuation prefixes, branch glyphs for non-roots, and
the node's display text. -/
def format_line (ops : NodeOps N I) (isRoot isLast hasChildren : Bool)
    (prefixes : List String) (n : N) : String :=
  ops.tableData n ++ " ┃ " ++ String.join prefixes ++
    (if !isRoot then
      (if isLast then "└─" else "├─") ++ (if hasChildren then "┬ " else "─ ")
     else "") ++ ops.display n

/-- The loop of `Forest::format_helper` (tree.rs lines 159–181) over the
already-filtered `children` vector.  `is_last` is last-position in the
filtered list; the `┬`/`─` marker reads the raw `child.children`; the prefix
stack is pushed before the recursive call (for non-roots) and popped
(`dropLast`) afterwards, exactly as in the source. -/
def format_loop (ops : NodeOps N I) (included : List I) :
    Bool → List (Tree N) → List String → List (I × String) × List String
  | _, [], prefixes => ([], prefixes)
  | isRoot, Tree.mk n cs :: rest, prefixes =>
    if ops.id n ∈ included then
      ((ops.id n, format_line ops isRoot rest.isEmpty (!cs.isEmpty) prefixes n) ::
        (format_loop ops included false
          (cs.filter (fun c => decide (ops.id c.node ∈ included)))
          (if isRoot then prefixes else prefixes ++ [if rest.isEmpty then "  " else "│ "])).1 ++
        (format_loop ops included isRoot rest
          ((format_loop ops included false
            (cs.filter (fun c => decide (ops.id c.node ∈ included)))
            (if isRoot then prefixes else prefixes ++ [if rest.isEmpty then "  " else "│ "])).2.dropLast)).1,
       (format_loop ops included isRoot rest
          ((format_loop ops included false
            (cs.filter (fun c => decide (ops.id c.node ∈ included)))
            (if isRoot then prefixes else prefixes ++ [if rest.isEmpty then "  " else "│ "])).2.dropLast)).2)
    else format_loop ops included isRoot rest prefixes
  termination_by _ ts _ => sizeOf ts
  decreasing_by
  all_goals
    simp only [List.cons.sizeOf_spec, Tree.mk.sizeOf_spec]
    first
    | exact lt_of_le_of_lt (sizeOf_filter_le _ cs) (by omega)
    | omega

/-- `Forest::format_helper` (tree.rs lines 147–182): restrict the sibling
list to the included nodes, then run the rendering loop. -/
def format_helper (ops : NodeOps N I) (included : List I) (isRoot : Bool)
    (ts : Forest N) (prefixes : List String) : List (I × String) × List String :=
  format_loop ops included isRoot
    (ts.filter (fun t => decide (ops.id t.node ∈ included))) prefixes

/-- `Forest::format_processes` (tree.rs lines 137–145). -/
def format_processes (ops : NodeOps N I) (f : Forest N) (pred : N → Bool) :
    List (I × String) :=
  (format_helper ops (filter_ids ops pred f) true f []).1

end ForestCode

section ForestFacts

variable {N I : Type} [DecidableEq I]

mutual

/-- All nodes of a tree: the node itself and, recursively, all nodes of the
children (document order). -/
def Tree.allNodesT {N : Type} : Tree N → List N
  | .mk n cs => n :: allNodesF cs

/-- All nodes of a forest in document order. -/
def allNodesF {N : Type} : Forest N → List N
  | [] => []
  | t :: rest => t.allNodesT ++ allNodesF rest

end

/-- The identifiers of all nodes of a forest, in document order. -/
def forest_ids (ops : NodeOps N I) (f : Forest N) : List I :=
  (allNodesF f).map ops.id

/-- The invariant of a `mk_forest` call: the pending roots and the children
lists are jointly duplicate-free, every pending identifier is still in the
node map, the fuel dominates the node-map size, the children map has
duplicate-free keys, and the node map is keyed by node identifier. -/
def MkForestHyps (ops : NodeOps N I) (fuel : Nat) (nm : AMap I N)
    (cm : AMap I (List I)) (roots : List I) : Prop :=
  ((roots ++ (List.map Prod.snd cm).flatten).Nodup) ∧
  (∀ r ∈ roots, (amLookup nm r).isSome) ∧
  (∀ v ∈ (List.map Prod.snd cm).flatten, (amLookup nm v).isSome) ∧
  (nm.length ≤ fuel) ∧
  ((amKeys cm).Nodup) ∧
  (∀ k n, amLookup nm k = some n → ops.id n = k)

/-- What a successful `mk_forest` call guarantees: the output maps are the
input maps with exactly the built identifiers removed, the built
identifiers are duplicate-free, closed under the children map, present in
the node map, include every root, exclude the values of surviving children
entries, and are contained in every set that contains the roots and is
closed under the children map. -/
def MkForestConcl (ops : NodeOps N I) (nm : AMap I N) (cm : AMap I (List I))
    (roots : List I) (f : Forest N) (nm' : AMap I N) (cm' : AMap I (List I)) : Prop :=
  (∀ k, amLookup nm' k = if k ∈ forest_ids ops f then none else amLookup nm k) ∧
  (∀ k, amLookup cm' k = if k ∈ forest_ids ops f then none else amLookup cm k) ∧
  ((forest_ids ops f).Nodup) ∧
  (∀ k ∈ forest_ids ops f, ∀ v ∈ (amLookup cm k).getD [], v ∈ forest_ids ops f) ∧
  (∀ k ∈ forest_ids ops f, (amLookup nm k).isSome) ∧
  (∀ r ∈ roots, r ∈ forest_ids ops f) ∧
  (∀ k l, amLookup cm' k = some l → ∀ v ∈ l, v ∉ forest_ids ops f) ∧
  (∀ R : I → Prop, (∀ r ∈ roots, R r) →
    (∀ k l, amLookup cm k = some l → R k → ∀ v ∈ l, R v) →
    ∀ x ∈ forest_ids ops f, R x)

mutual

/-- `TreeMemT t m`: `t` occurs as a subtree of the tree `m` (possibly `m`
itself). -/
def TreeMemT {N : Type} (t : Tree N) : Tree N → Prop
  | .mk n cs => t = .mk n cs ∨ TreeMemF t cs

/-- `TreeMemF t ts`: `t` occurs as a subtree of some tree of the forest
`ts`, at any depth. -/
def TreeMemF {N : Type} (t : Tree N) : Forest N → Prop
  | [] => False
  | m :: rest => TreeMemT t m ∨ TreeMemF t rest

end

/-- `ReachableId ops input x`: some input record with identifier `x` is
attachable to a root: it either has no parent, or its parent identifier is
itself reachable.  Exactly the identifiers with this property end up in the
forest built by `new_forest`. -/
inductive ReachableId (ops : NodeOps N I) (input : List N) : I → Prop where
  | isRoot (n : N) : n ∈ input → ops.parent n = none → ReachableId ops input (ops.id n)
  | step (n : N) (p : I) : n ∈ input → ops.parent n = some p →
      ReachableId ops input p → ReachableId ops input (ops.id n)

/-- `IdDesc ops input a x`: identifier `x` lies in the parent-chain subtree
of identifier `a` within the input record set (`a` itself, or a record whose
parent identifier already lies in that subtree). -/
inductive IdDesc (ops : NodeOps N I) (input : List N) (a : I) : I → Prop where
  | refl : IdDesc ops input a a
  | step (n : N) (p : I) : n ∈ input → ops.parent n = some p →
      IdDesc ops input a p → IdDesc ops input a (ops.id n)

end ForestFacts

section SpecModels

variable {N I : Type} [DecidableEq I]

/-- Modelled from the spec (§4.5): the renderer of the *unfiltered*,
accumulated, sorted forest — the depth-first walk over every node with the
same columns, continuation prefixes and branch glyphs, with no inclusion
test anywhere. -/
def render_all_loop (ops : NodeOps N I) :
    Bool → Forest N → List String → List (I × String)
  | _, [], _ => []
  | isRoot, Tree.mk n cs :: rest, prefixes =>
    (ops.id n, format_line ops isRoot rest.isEmpty (!cs.isEmpty) prefixes n) ::
      (render_all_loop ops false cs
        (if isRoot then prefixes else prefixes ++ [if rest.isEmpty then "  " else "│ "]) ++
       render_all_loop ops isRoot rest prefixes)

/-- Modelled from the spec (§4.5): rendering the whole forest without a
filter. -/
def render_unfiltered (ops : NodeOps N I) (f : Forest N) : List (I × String) :=
  render_all_loop ops true f []

/-- Modelled from the spec (§4.5): the rendering loop in which the `┬`/`─`
marker is chosen by whether the node has at least one *included* child
(rather than the raw `children` emptiness test the code performs).
Everything else is as in `format_loop`. -/
def format_spec_loop (ops : NodeOps N I) (included : List I) :
    Bool → List (Tree N) → List String → List (I × String) × List String
  | _, [], prefixes => ([], prefixes)
  | isRoot, Tree.mk n cs :: rest, prefixes =>
    if ops.id n ∈ included then
      ((ops.id n, format_line ops isRoot rest.isEmpty
          (cs.any (fun c => decide (ops.id c.node ∈ included))) prefixes n) ::
        (format_spec_loop ops included false
          (cs.filter (fun c => decide (ops.id c.node ∈ included)))
          (if isRoot then prefixes else prefixes ++ [if rest.isEmpty then "  " else "│ "])).1 ++
        (format_spec_loop ops included isRoot rest
          ((format_spec_loop ops included false
            (cs.filter (fun c => decide (ops.id c.node ∈ included)))
            (if isRoot then prefixes else prefixes ++ [if rest.isEmpty then "  " else "│ "])).2.dropLast)).1,
       (format_spec_loop ops included isRoot rest
          ((format_spec_loop ops included false
            (cs.filter (fun c => decide (ops.id c.node ∈ included)))
            (if isRoot then prefixes else prefixes ++ [if rest.isEmpty then "  " else "│ "])).2.dropLast)).2)
    else format_spec_loop ops included isRoot rest prefixes
  termination_by _ ts _ => sizeOf ts
  decreasing_by
  all_goals
    simp only [List.cons.sizeOf_spec, Tree.mk.sizeOf_spec]
    first
    | exact lt_of_le_of_lt (sizeOf_filter_le _ cs) (by omega)
    | omega

/-- Modelled from the spec (§4.5): the full render pipeline with the
spec's included-children marker rule. -/
def format_spec_processes (ops : NodeOps N I) (f : Forest N) (pred : N → Bool) :
    List (I × String) :=
  (format_spec_loop ops (filter_ids ops pred f) true
    (f.filter (fun t => decide (ops.id t.node ∈ filter_ids ops pred f))) []).1

end SpecModels

section SessionState

variable {N I : Type} [DecidableEq I]

/-- The `UiMode` enum of `treetop_app.rs`. -/
inductive UiMode (I : Type) where
  | normal
  | editingPattern
  | processSelected (pid : I)
deriving DecidableEq

/-- The stale-selection check at the end of `TreetopApp::update_processes`
(treetop_app.rs lines 61–65), applied to the forest just rebuilt by the
tick.  Modelled from the spec: `Forest::iter` is not part of `tree.rs` in
this source tree; per §4.6 it is modelled as iteration over every node of
the rebuilt forest. -/
def update_processes_mode (ops : NodeOps N I) (f : Forest N) (m : UiMode I) : UiMode I :=
  match m with
  | .processSelected sel =>
    if (allNodesF f).any (fun n => decide (ops.id n = sel)) then .processSelected sel
    else .normal
  | m => m

end SessionState

section ProcessCode

/-- Rust's `usize::cmp`. -/
def cmpNat (a b : Nat) : Ordering :=
  if a < b then .lt else if a = b then .eq else .gt

/-- The `SortBy` enum of `process.rs`. -/
inductive SortBy where
  | pid
  | cpu
  | ram
deriving DecidableEq

/-- `SortBy::next` (process.rs lines 165–171). -/
def SortBy.next : SortBy → SortBy
  | .pid => .cpu
  | .cpu => .ram
  | .ram => .pid

/-- The `Process` record of `process.rs`.  The CPU metric is an `f32` in the
source; it is embedded as an abstract type `C` whose `partial_cmp` is an
arbitrary function into `Option Ordering`, so every theorem about it covers
any conceivable floating-point comparison behaviour, `NaN` included. -/
structure Process (C : Type) where
  pid : Nat
  name : String
  cpu : C
  ram : Nat

/-- The `ordering` value computed by `Process::compare` (process.rs lines
81–85): `partial_cmp` on the sort key, reversed for cpu and ram. -/
def key_ordering {C : Type} (pcmpC : C → C → Option Ordering)
    (self other : Process C) (sort_by : SortBy) : Option Ordering :=
  match sort_by with
  | .pid => some (cmpNat self.pid other.pid)
  | .cpu => pcmpC other.cpu self.cpu
  | .ram => some (cmpNat other.ram self.ram)

/-- `Process::compare` (process.rs lines 80–91): equal or incomparable key
values fall back to ascending pid order. -/
def Process.compare {C : Type} (pcmpC : C → C → Option Ordering)
    (self other : Process C) (sort_by : SortBy) : Ordering :=
  match key_ordering pcmpC self other sort_by with
  | some Ordering.eq => cmpNat self.pid other.pid
  | some o => o
  | none => cmpNat self.pid other.pid

/-- `Process::accumulate_from` (process.rs lines 56–59), with the `f32`
cpu addition abstracted by `addC`. -/
def Process.accumulate_from {C : Type} (addC : C → C → C)
    (self other : Process C) : Process C :=
  { self with cpu := addC self.cpu other.cpu, ram := self.ram + other.ram }

end ProcessCode

section RegexCode

/-- The `Regex` enum of `regex.rs`: a compiled matcher (abstracted by its
matching function) or the explicit invalid marker carrying the source
text. -/
inductive Regex : Type where
  | compiled (matcher : String → Bool) (srcText : String)
  | invalid (srcText : String)

/-- `Regex::is_match` (regex.rs lines 18–23): an invalid pattern matches
nothing. -/
def Regex.is_match : Regex → String → Bool
  | .compiled m _, s => m s
  | .invalid _, _ => false

end RegexCode

section TestInstances

/-- The `TestNode` of `tree.rs`'s accumulation tests (mod `i_accumulation`):
a `u8` identifier, an optional parent and an `i32` metric, compared by
descending accumulated metric, accumulated by addition. -/
structure TestNode where
  id : Nat
  parent : Option Nat
  to_accumulate : Int
deriving DecidableEq, Repr

/-- The `Node` trait implementation of the accumulation `TestNode`. -/
def test_node_ops : NodeOps TestNode Nat where
  id := TestNode.id
  parent := TestNode.parent
  cmp := fun a b => compare b.to_accumulate a.to_accumulate
  accumulateFrom := fun s o => { s with to_accumulate := s.to_accumulate + o.to_accumulate }
  tableData := fun n => toString n.id
  display := fun n => toString n.to_accumulate

mutual

/-- Sum of the base metric of a tree's node and of all its descendants. -/
def tree_sum : Tree TestNode → Int
  | .mk n cs => n.to_accumulate + forest_sum cs

/-- Sum of the base metrics of every node of a forest. -/
def forest_sum : Forest TestNode → Int
  | [] => 0
  | t :: rest => tree_sum t + forest_sum rest

end

mutual

/-- Modelled from the spec (§4.2): after accumulation every node's metric
equals its base value plus the sum of all descendants' base values, with
the tree shape untouched. -/
def acc_spec_tree : Tree TestNode → Tree TestNode
  | .mk n cs =>
    .mk { n with to_accumulate := n.to_accumulate + forest_sum cs } (acc_spec_forest cs)

/-- Modelled from the spec (§4.2): `acc_spec_tree` applied to every tree of
the forest. -/
def acc_spec_forest : Forest TestNode → Forest TestNode
  | [] => []
  | t :: rest => acc_spec_tree t :: acc_spec_forest rest

end

end TestInstances

/-! ## Supporting lemmas -/

theorem cmpNat_ne_eq {a b : Nat} (h : a ≠ b) : cmpNat a b ≠ Ordering.eq := by
  unfold cmpNat
  by_cases h1 : a < b
  · simp [h1]
  · simp [h1, h]

theorem cmpNat_eq_iff (a b : Nat) : cmpNat a b = Ordering.eq ↔ a = b := by
  constructor
  · intro h
    by_contra hne
    exact cmpNat_ne_eq hne h
  · intro h
    subst h
    unfold cmpNat
    simp

/-- The metric accumulated by folding `accumulate_from` over a child list is
the starting metric plus the sum of the children's metrics; identifier and
parent are untouched. -/
theorem foldl_accumulate (l : List (Tree TestNode)) : ∀ n : TestNode,
    l.foldl (fun acc c => test_node_ops.accumulateFrom acc c.node) n =
      ⟨n.id, n.parent, n.to_accumulate + (l.map (fun c => c.node.to_accumulate)).sum⟩ := by
  induction l with
  | nil => intro n; simp
  | cons c rest ih =>
    intro n
    simp only [List.foldl_cons, List.map_cons, List.sum_cons]
    rw [ih]
    simp only [test_node_ops, NodeOps.accumulateFrom]
    congr 1
    ring

theorem acc_spec_tree_node_value (t : Tree TestNode) :
    (acc_spec_tree t).node.to_accumulate = tree_sum t := by
  cases t with
  | mk n cs => simp [acc_spec_tree, Tree.node, tree_sum]

theorem acc_spec_forest_metric_sum (cs : Forest TestNode) :
    ((acc_spec_forest cs).map (fun c => c.node.to_accumulate)).sum = forest_sum cs := by
  induction cs with
  | nil => simp [acc_spec_forest, forest_sum]
  | cons t rest ih =>
    simp only [acc_spec_forest, forest_sum, List.map_cons, List.sum_cons, ih,
      acc_spec_tree_node_value]

/-- Unfolding of `sort_forest` without the `attach` used for termination. -/
theorem sort_forest_eval {N I : Type} [DecidableEq I] (ops : NodeOps N I) (ts : Forest N) :
    sort_forest ops ts =
      (ts.insertionSort (fun a b => ops.cmp a.node b.node ≠ Ordering.gt)).map
        (fun t => Tree.mk t.node (sort_forest ops t.children)) := by
  rw [sort_forest]
  exact List.attach_map_val
    (List.insertionSort (fun a b => ops.cmp a.node b.node ≠ Ordering.gt) ts)
    (fun t => Tree.mk t.node (sort_forest ops t.children))

/-- Constructor-shaped unfolding of `sort_forest` on the empty forest. -/
theorem sort_forest_nil {N I : Type} [DecidableEq I] (ops : NodeOps N I) :
    sort_forest ops ([] : Forest N) = [] := by
  rw [sort_forest_eval]
  simp

/-- Constructor-shaped unfolding of `sort_forest` on a non-empty forest,
used to evaluate concrete examples. -/
theorem sort_forest_cons {N I : Type} [DecidableEq I] (ops : NodeOps N I)
    (t : Tree N) (ts : Forest N) :
    sort_forest ops (t :: ts) =
      ((t :: ts).insertionSort (fun a b => ops.cmp a.node b.node ≠ Ordering.gt)).map
        (fun u => Tree.mk u.node (sort_forest ops u.children)) :=
  sort_forest_eval ops (t :: ts)

/-! ## Main theorems -/

/-- C9: `is_match` on a `Pattern` in its invalid state returns `false` for
every input string — an uncompilable pattern matches nothing. -/
theorem invalid_pattern_matches_nothing :
    ∀ (srcText s : String), (Regex.invalid srcText).is_match s = false :=
  fun _ _ => rfl

/-- C8: whichever sort key is active and whatever the partial comparison on
the key values does, if the two processes have distinct pids then
`Process::compare` never returns `Equal`; and whenever the key comparison is
`Equal` or incomparable (e.g. NaN cpu values), the result is exactly the
ascending-pid order.  Determinism of repeated sorts follows since the
comparator is a pure function of its inputs. -/
theorem process_compare_tie_breaks {C : Type} (pcmpC : C → C → Option Ordering)
    (a b : Process C) (k : SortBy) (hne : a.pid ≠ b.pid) :
    Process.compare pcmpC a b k ≠ Ordering.eq ∧
    ((key_ordering pcmpC a b k = some Ordering.eq ∨ key_ordering pcmpC a b k = none) →
      Process.compare pcmpC a b k = cmpNat a.pid b.pid) := by
  have hcmp := cmpNat_ne_eq hne
  unfold Process.compare
  rcases h : key_ordering pcmpC a b k with _ | o
  · exact ⟨hcmp, fun _ => rfl⟩
  · cases o with
    | lt => exact ⟨by simp, by simp⟩
    | eq => exact ⟨hcmp, fun _ => rfl⟩
    | gt => exact ⟨by simp, by simp⟩

/-- Witness for C8 at concrete inputs, with an incomparable ("NaN"-like)
cpu comparison. -/
theorem process_compare_tie_breaks_witness :
    (1 : Nat) ≠ 2 ∧
    (Process.compare (fun _ _ => (none : Option Ordering))
        ⟨1, "a", (), 0⟩ ⟨2, "b", (), 0⟩ SortBy.cpu ≠ Ordering.eq ∧
      ((key_ordering (fun _ _ => (none : Option Ordering))
          ⟨1, "a", (), 0⟩ ⟨2, "b", (), 0⟩ SortBy.cpu = some Ordering.eq ∨
        key_ordering (fun _ _ => (none : Option Ordering))
          ⟨1, "a", (), 0⟩ ⟨2, "b", (), 0⟩ SortBy.cpu = none) →
        Process.compare (fun _ _ => (none : Option Ordering))
          ⟨1, "a", (), 0⟩ ⟨2, "b", (), 0⟩ SortBy.cpu = cmpNat 1 2)) :=
  ⟨by decide, process_compare_tie_breaks (fun _ _ => none) ⟨1, "a", (), 0⟩ ⟨2, "b", (), 0⟩
    SortBy.cpu (by decide)⟩

/-- C7: after the stale-selection check of `update_processes`, a selection
whose id is absent from the rebuilt forest reverts to `Normal`, and any
surviving selection references an id present in the rebuilt forest. -/
theorem stale_selection_reverts {N I : Type} [DecidableEq I] (ops : NodeOps N I)
    (f : Forest N) (m : UiMode I) :
    (∀ sel, m = UiMode.processSelected sel → (¬ ∃ n ∈ allNodesF f, ops.id n = sel) →
      update_processes_mode ops f m = UiMode.normal) ∧
    (∀ sel, update_processes_mode ops f m = UiMode.processSelected sel →
      ∃ n ∈ allNodesF f, ops.id n = sel) := by
  constructor
  · intro sel hm habs
    subst hm
    unfold update_processes_mode
    have : (allNodesF f).any (fun n => decide (ops.id n = sel)) = false := by
      rw [List.any_eq_false]
      intro n hn
      simp only [decide_eq_true_eq]
      intro heq
      exact habs ⟨n, hn, heq⟩
    simp [this]
  · intro sel hm
    cases m with
    | normal => exact absurd hm (by simp [update_processes_mode])
    | editingPattern => exact absurd hm (by simp [update_processes_mode])
    | processSelected s =>
      have hrw : update_processes_mode ops f (UiMode.processSelected s) =
          if (allNodesF f).any (fun n => decide (ops.id n = s)) then
            UiMode.processSelected s
          else UiMode.normal := rfl
      rw [hrw] at hm
      by_cases h : (allNodesF f).any (fun n => decide (ops.id n = s)) = true
      · rw [if_pos h] at hm
        cases hm
        rcases List.any_eq_true.mp h with ⟨n, hn, hid⟩
        exact ⟨n, hn, of_decide_eq_true hid⟩
      · rw [if_neg h] at hm
        cases hm

/-- Witness for C7: a selected id missing from the rebuilt forest reverts
to `Normal`. -/
theorem stale_selection_reverts_witness :
    update_processes_mode test_node_ops [Tree.mk (⟨1, none, 0⟩ : TestNode) []]
      (UiMode.processSelected 5) = UiMode.normal :=
  (stale_selection_reverts test_node_ops [Tree.mk ⟨1, none, 0⟩ []]
    (UiMode.processSelected 5)).1 5 rfl (by decide)

set_option maxRecDepth 4000 in
set_option maxHeartbeats 1000000 in
/-- C2: `compute_accumulate` turns every node's metric into its base value
plus the sum of all descendants' base values, for every forest shape; and on
the example records (id 1, root, base 2), (id 2, child of 1, base 3),
(id 3, child of 2, base 8) the forest built by `new_forest` carries the
accumulated values 13, 11 and 8. -/
theorem accumulate_correct :
    (∀ f : Forest TestNode, compute_accumulate test_node_ops f = acc_spec_forest f) ∧
    new_forest test_node_ops
        [⟨1, none, 2⟩, ⟨2, some 1, 3⟩, ⟨3, some 2, 8⟩] =
      some [Tree.mk ⟨1, none, 13⟩ [Tree.mk ⟨2, some 1, 11⟩ [Tree.mk ⟨3, some 2, 8⟩ []]]] := by
  constructor
  · intro f
    induction f using compute_accumulate.induct test_node_ops with
    | case1 => simp [compute_accumulate, acc_spec_forest]
    | case2 n cs rest ih1 ih2 =>
      simp only [compute_accumulate, acc_spec_forest, acc_spec_tree, ih1, ih2,
        foldl_accumulate, acc_spec_forest_metric_sum]
  · simp +decide [new_forest, new_forest_loop, mk_forest, amLookup, amErase, amInsert,
      compute_accumulate, sort_forest_nil, sort_forest_cons, List.insertionSort,
      List.orderedInsert, Tree.node, Tree.children, test_node_ops]

/-! ## Membership in trees and forests -/

theorem mem_insertId_self {I : Type} [DecidableEq I] (y : I) (s : List I) :
    y ∈ insertId y s := by
  unfold insertId
  split
  · assumption
  · exact List.mem_cons_self y s

theorem mem_insertId_of_mem {I : Type} [DecidableEq I] {x : I} (y : I) {s : List I}
    (h : x ∈ s) : x ∈ insertId y s := by
  unfold insertId
  split
  · exact h
  · exact List.mem_cons_of_mem y h

theorem mem_insertId_iff {I : Type} [DecidableEq I] (x y : I) (s : List I) :
    x ∈ insertId y s ↔ x = y ∨ x ∈ s := by
  unfold insertId
  split
  · constructor
    · exact fun h => Or.inr h
    · rintro (rfl | h)
      · assumption
      · assumption
  · exact List.mem_cons

mutual

theorem TreeMemT.trans {N : Type} {s t m : Tree N} (h1 : TreeMemT t m)
    (h2 : TreeMemT s t) : TreeMemT s m := by
  cases m with
  | mk n cs =>
    cases h1 with
    | inl h =>
      subst h
      exact h2
    | inr h =>
      exact Or.inr (TreeMemF.transT h h2)

theorem TreeMemF.transT {N : Type} {s t : Tree N} {ts : Forest N}
    (h1 : TreeMemF t ts) (h2 : TreeMemT s t) : TreeMemF s ts := by
  cases ts with
  | nil => exact absurd h1 (by simp [TreeMemF])
  | cons m rest =>
    cases h1 with
    | inl h => exact Or.inl (TreeMemT.trans h h2)
    | inr h => exact Or.inr (TreeMemF.transT h h2)

end

/-- Every tree of the list is a subtree occurrence of the forest. -/
theorem TreeMemF.of_mem {N : Type} {t : Tree N} {ts : Forest N} (h : t ∈ ts) :
    TreeMemF t ts := by
  induction ts with
  | nil => cases h
  | cons m rest ih =>
    cases h with
    | head =>
      cases t with
      | mk n cs => exact Or.inl (Or.inl rfl)
    | tail _ h => exact Or.inr (ih h)

/-- A subtree of the `filter` of a list is a subtree of the list. -/
theorem TreeMemF.of_filter {N : Type} {t : Tree N} {p : Tree N → Bool} {ts : Forest N}
    (h : TreeMemF t (ts.filter p)) : TreeMemF t ts := by
  induction ts with
  | nil => simpa [List.filter_nil] using h
  | cons m rest ih =>
    rw [List.filter_cons] at h
    by_cases hp : p m = true
    · rw [if_pos hp] at h
      cases h with
      | inl h => exact Or.inl h
      | inr h => exact Or.inr (ih h)
    · rw [if_neg hp] at h
      exact Or.inr (ih h)

mutual

theorem TreeMemT.node_memT {N : Type} {t m : Tree N} (h : TreeMemT t m) :
    t.node ∈ m.allNodesT := by
  cases m with
  | mk n cs =>
    cases h with
    | inl h =>
      subst h
      exact List.mem_cons_self _ _
    | inr h =>
      exact List.mem_cons_of_mem n (TreeMemF.node_memF h)

theorem TreeMemF.node_memF {N : Type} {t : Tree N} {ts : Forest N} (h : TreeMemF t ts) :
    t.node ∈ allNodesF ts := by
  cases ts with
  | nil => exact absurd h (by simp [TreeMemF])
  | cons m rest =>
    cases h with
    | inl h => exact List.mem_append_left _ (TreeMemT.node_memT h)
    | inr h => exact List.mem_append_right _ (TreeMemF.node_memF h)

end

/-! ## Properties of the filter (tree.rs `filter_helper`) -/

section FilterLemmas

variable {N I : Type} [DecidableEq I] (ops : NodeOps N I) (pred : N → Bool)

/-- `filter_helper` only grows the included set. -/
theorem filter_helper_mono :
    ∀ (ts : Forest N) (flag : Bool) (inc : List I), ∀ x ∈ inc,
      x ∈ (filter_helper ops pred ts flag inc).1 := by
  intro ts flag inc
  induction ts, flag, inc using filter_helper.induct ops pred with
  | case1 flag inc =>
    intro x hx
    simpa [filter_helper] using hx
  | case2 n cs rest flag inc hcond ih1 ih2 =>
    intro x hx
    simp only [filter_helper, hcond, if_pos]
    exact ih2 x (ih1 x (mem_insertId_of_mem _ hx))
  | case3 n cs rest flag inc hcond hb ih1 ih2 =>
    intro x hx
    simp only [filter_helper, hcond]
    rw [if_neg (by simp [hcond]), if_pos hb]
    exact ih2 x (mem_insertId_of_mem _ (ih1 x hx))
  | case4 n cs rest flag inc hcond hb ih1 ih2 =>
    intro x hx
    simp only [filter_helper, hcond]
    rw [if_neg (by simp [hcond]), if_neg (by simp [hb])]
    exact ih2 x (ih1 x hx)

/-- With the parent-included flag set, every node of the forest is
included. -/
theorem filter_helper_flag_true :
    ∀ (ts : Forest N) (flag : Bool) (inc : List I), flag = true →
      ∀ t, TreeMemF t ts → ops.id t.node ∈ (filter_helper ops pred ts flag inc).1 := by
  intro ts flag inc
  induction ts, flag, inc using filter_helper.induct ops pred with
  | case1 flag inc =>
    intro _ t ht
    exact absurd ht (by simp [TreeMemF])
  | case2 n cs rest flag inc hcond ih1 ih2 =>
    intro hflag t ht
    simp only [filter_helper, hcond, if_pos]
    cases ht with
    | inl ht =>
      cases ht with
      | inl ht =>
        subst ht
        exact filter_helper_mono ops pred _ _ _ _
          (filter_helper_mono ops pred _ _ _ _ (mem_insertId_self _ _))
      | inr ht =>
        exact filter_helper_mono ops pred _ _ _ _ (ih1 rfl t ht)
    | inr ht => exact ih2 hflag t ht
  | case3 n cs rest flag inc hcond hb ih1 ih2 =>
    intro hflag t ht
    subst hflag
    simp at hcond
  | case4 n cs rest flag inc hcond hb ih1 ih2 =>
    intro hflag t ht
    subst hflag
    simp at hcond

/-- With an always-true predicate, every node of the forest is included. -/
theorem filter_helper_all_true (hpred : ∀ n, pred n = true) :
    ∀ (ts : Forest N) (flag : Bool) (inc : List I),
      ∀ t, TreeMemF t ts → ops.id t.node ∈ (filter_helper ops pred ts flag inc).1 := by
  intro ts flag inc
  induction ts, flag, inc using filter_helper.induct ops pred with
  | case1 flag inc =>
    intro t ht
    exact absurd ht (by simp [TreeMemF])
  | case2 n cs rest flag inc hcond ih1 ih2 =>
    intro t ht
    simp only [filter_helper, hcond, if_pos]
    cases ht with
    | inl ht =>
      cases ht with
      | inl ht =>
        subst ht
        exact filter_helper_mono ops pred _ _ _ _
          (filter_helper_mono ops pred _ _ _ _ (mem_insertId_self _ _))
      | inr ht =>
        exact filter_helper_mono ops pred _ _ _ _
          (filter_helper_flag_true ops pred cs true _ rfl t ht)
    | inr ht => exact ih2 t ht
  | case3 n cs rest flag inc hcond hb ih1 ih2 =>
    exact absurd (by simp [hpred] : (flag || pred n) = true) (by simp [hcond])
  | case4 n cs rest flag inc hcond hb ih1 ih2 =>
    exact absurd (by simp [hpred] : (flag || pred n) = true) (by simp [hcond])

/-- If some node of the forest matches the predicate, the
`any_child_included` result is `true`. -/
theorem filter_helper_any_of_match :
    ∀ (ts : Forest N) (flag : Bool) (inc : List I),
      ∀ t, TreeMemF t ts → pred t.node = true →
        (filter_helper ops pred ts flag inc).2 = true := by
  intro ts flag inc
  induction ts, flag, inc using filter_helper.induct ops pred with
  | case1 flag inc =>
    intro t ht _
    exact absurd ht (by simp [TreeMemF])
  | case2 n cs rest flag inc hcond ih1 ih2 =>
    intro t ht hp
    simp [filter_helper, hcond]
  | case3 n cs rest flag inc hcond hb ih1 ih2 =>
    intro t ht hp
    simp only [filter_helper, hcond]
    rw [if_neg (by simp [hcond]), if_pos hb]
  | case4 n cs rest flag inc hcond hb ih1 ih2 =>
    intro t ht hp
    simp only [filter_helper, hcond]
    rw [if_neg (by simp [hcond]), if_neg (by simp [hb])]
    cases ht with
    | inl ht =>
      cases ht with
      | inl hteq =>
        subst hteq
        simp only [Tree.node] at hp
        simp [hp] at hcond
      | inr ht =>
        exact absurd (ih1 t ht hp) (by simp [hb])
    | inr ht => exact ih2 t ht hp

/-- Descendant inclusion: every subtree node of a predicate-matching node is
included. -/
theorem filter_helper_descendants :
    ∀ (ts : Forest N) (flag : Bool) (inc : List I),
      ∀ t s, TreeMemF t ts → TreeMemT s t → pred t.node = true →
        ops.id s.node ∈ (filter_helper ops pred ts flag inc).1 := by
  intro ts flag inc
  induction ts, flag, inc using filter_helper.induct ops pred with
  | case1 flag inc =>
    intro t s ht _ _
    exact absurd ht (by simp [TreeMemF])
  | case2 n cs rest flag inc hcond ih1 ih2 =>
    intro t s ht hs hp
    simp only [filter_helper, hcond, if_pos]
    cases ht with
    | inl ht =>
      have hmemcs : TreeMemT s (Tree.mk n cs) := TreeMemT.trans ht hs
      cases hmemcs with
      | inl hseq =>
        subst hseq
        exact filter_helper_mono ops pred _ _ _ _
          (filter_helper_mono ops pred _ _ _ _ (mem_insertId_self _ _))
      | inr hmem =>
        exact filter_helper_mono ops pred _ _ _ _
          (filter_helper_flag_true ops pred cs true _ rfl s hmem)
    | inr ht => exact ih2 t s ht hs hp
  | case3 n cs rest flag inc hcond hb ih1 ih2 =>
    intro t s ht hs hp
    simp only [filter_helper, hcond]
    rw [if_neg (by simp [hcond]), if_pos hb]
    cases ht with
    | inl ht =>
      cases ht with
      | inl hteq =>
        subst hteq
        simp only [Tree.node] at hp
        simp [hp] at hcond
      | inr ht =>
        exact filter_helper_mono ops pred _ _ _ _
          (mem_insertId_of_mem _ (ih1 t s ht hs hp))
    | inr ht => exact ih2 t s ht hs hp
  | case4 n cs rest flag inc hcond hb ih1 ih2 =>
    intro t s ht hs hp
    simp only [filter_helper, hcond]
    rw [if_neg (by simp [hcond]), if_neg (by simp [hb])]
    cases ht with
    | inl ht =>
      cases ht with
      | inl hteq =>
        subst hteq
        simp only [Tree.node] at hp
        simp [hp] at hcond
      | inr ht =>
        exact absurd (filter_helper_any_of_match ops pred cs false inc t ht hp)
          (by simp [hb])
    | inr ht => exact ih2 t s ht hs hp

/-- Ancestor inclusion: every node whose subtree contains a
predicate-matching node is included. -/
theorem filter_helper_ancestors :
    ∀ (ts : Forest N) (flag : Bool) (inc : List I),
      ∀ t s, TreeMemF t ts → TreeMemT s t → pred s.node = true →
        ops.id t.node ∈ (filter_helper ops pred ts flag inc).1 := by
  intro ts flag inc
  induction ts, flag, inc using filter_helper.induct ops pred with
  | case1 flag inc =>
    intro t s ht _ _
    exact absurd ht (by simp [TreeMemF])
  | case2 n cs rest flag inc hcond ih1 ih2 =>
    intro t s ht hs hp
    simp only [filter_helper, hcond, if_pos]
    cases ht with
    | inl ht =>
      cases ht with
      | inl hteq =>
        subst hteq
        exact filter_helper_mono ops pred _ _ _ _
          (filter_helper_mono ops pred _ _ _ _ (mem_insertId_self _ _))
      | inr ht =>
        exact filter_helper_mono ops pred _ _ _ _
          (filter_helper_flag_true ops pred cs true _ rfl t ht)
    | inr ht => exact ih2 t s ht hs hp
  | case3 n cs rest flag inc hcond hb ih1 ih2 =>
    intro t s ht hs hp
    simp only [filter_helper, hcond]
    rw [if_neg (by simp [hcond]), if_pos hb]
    cases ht with
    | inl ht =>
      cases ht with
      | inl hteq =>
        subst hteq
        exact filter_helper_mono ops pred _ _ _ _ (mem_insertId_self _ _)
      | inr ht =>
        exact filter_helper_mono ops pred _ _ _ _
          (mem_insertId_of_mem _ (ih1 t s ht hs hp))
    | inr ht => exact ih2 t s ht hs hp
  | case4 n cs rest flag inc hcond hb ih1 ih2 =>
    intro t s ht hs hp
    simp only [filter_helper, hcond]
    rw [if_neg (by simp [hcond]), if_neg (by simp [hb])]
    cases ht with
    | inl ht =>
      have hmem : TreeMemF s cs ∨ s = Tree.mk n cs := by
        cases ht with
        | inl hteq =>
          subst hteq
          cases hs with
          | inl h => exact Or.inr h
          | inr h => exact Or.inl h
        | inr ht => exact Or.inl (TreeMemF.transT ht hs)
      cases hmem with
      | inl hmem =>
        exact absurd (filter_helper_any_of_match ops pred cs false inc s hmem hp)
          (by simp [hb])
      | inr hseq =>
        rw [hseq] at hp
        simp only [Tree.node] at hp
        simp [hp] at hcond
    | inr ht => exact ih2 t s ht hs hp

end FilterLemmas

/-- C3: for every forest and predicate, if the predicate holds of a node
`s` then every ancestor `t` of `s` (up to its root) is in the included set,
and if it holds of a node `t` then every node `s` of `t`'s subtree is in
the included set. -/
theorem filter_preserves_ancestors_and_descendants {N I : Type} [DecidableEq I]
    (ops : NodeOps N I) (pred : N → Bool) (f : Forest N) (t s : Tree N)
    (ht : TreeMemF t f) (hs : TreeMemT s t) :
    (pred s.node = true → ops.id t.node ∈ filter_ids ops pred f) ∧
    (pred t.node = true → ops.id s.node ∈ filter_ids ops pred f) :=
  ⟨fun hp => filter_helper_ancestors ops pred f false [] t s ht hs hp,
   fun hp => filter_helper_descendants ops pred f false [] t s ht hs hp⟩

/-- Witness for C3 on the chain 1 → 2 → 3 with the predicate matching only
id 3: node 2's subtree occurrence and its descendant 3 satisfy the
hypotheses, and both the ancestor and the descendant directions apply. -/
theorem filter_preserves_ancestors_and_descendants_witness :
    TreeMemF (Tree.mk (⟨2, some 1, 0⟩ : TestNode) [Tree.mk ⟨3, some 2, 0⟩ []])
      [Tree.mk ⟨1, none, 0⟩ [Tree.mk ⟨2, some 1, 0⟩ [Tree.mk ⟨3, some 2, 0⟩ []]]] ∧
    TreeMemT (Tree.mk (⟨3, some 2, 0⟩ : TestNode) [])
      (Tree.mk ⟨2, some 1, 0⟩ [Tree.mk ⟨3, some 2, 0⟩ []]) ∧
    (((fun n => decide (n.id = 3)) (Tree.mk (⟨3, some 2, 0⟩ : TestNode) []).node = true →
      test_node_ops.id (Tree.mk (⟨2, some 1, 0⟩ : TestNode) [Tree.mk ⟨3, some 2, 0⟩ []]).node ∈
        filter_ids test_node_ops (fun n => decide (n.id = 3))
          [Tree.mk ⟨1, none, 0⟩ [Tree.mk ⟨2, some 1, 0⟩ [Tree.mk ⟨3, some 2, 0⟩ []]]]) ∧
    ((fun n => decide (n.id = 3)) (Tree.mk (⟨2, some 1, 0⟩ : TestNode) [Tree.mk ⟨3, some 2, 0⟩ []]).node = true →
      test_node_ops.id (Tree.mk (⟨3, some 2, 0⟩ : TestNode) []).node ∈
        filter_ids test_node_ops (fun n => decide (n.id = 3))
          [Tree.mk ⟨1, none, 0⟩ [Tree.mk ⟨2, some 1, 0⟩ [Tree.mk ⟨3, some 2, 0⟩ []]]])) := by
  refine ⟨?_, ?_, ?_⟩
  · simp [TreeMemF, TreeMemT]
  · simp [TreeMemT, TreeMemF]
  · exact filter_preserves_ancestors_and_descendants test_node_ops
      (fun n => decide (n.id = 3))
      [Tree.mk ⟨1, none, 0⟩ [Tree.mk ⟨2, some 1, 0⟩ [Tree.mk ⟨3, some 2, 0⟩ []]]]
      (Tree.mk ⟨2, some 1, 0⟩ [Tree.mk ⟨3, some 2, 0⟩ []])
      (Tree.mk ⟨3, some 2, 0⟩ [])
      (by simp [TreeMemF, TreeMemT])
      (by simp [TreeMemT, TreeMemF])

/-! ## The renderer on an all-included forest (C4) -/

section RenderLemmas

variable {N I : Type} [DecidableEq I] (ops : NodeOps N I)

theorem format_loop_nil (included : List I) (isRoot : Bool) (prefixes : List String) :
    format_loop ops included isRoot ([] : Forest N) prefixes = ([], prefixes) := by
  rw [format_loop]

theorem format_loop_cons_included {included : List I} {isRoot : Bool} {n : N}
    {cs rest : Forest N} {prefixes : List String} (h : ops.id n ∈ included) :
    format_loop ops included isRoot (Tree.mk n cs :: rest) prefixes =
      ((ops.id n, format_line ops isRoot rest.isEmpty (!cs.isEmpty) prefixes n) ::
        (format_loop ops included false
          (cs.filter (fun c => decide (ops.id c.node ∈ included)))
          (if isRoot then prefixes else prefixes ++ [if rest.isEmpty then "  " else "│ "])).1 ++
        (format_loop ops included isRoot rest
          ((format_loop ops included false
            (cs.filter (fun c => decide (ops.id c.node ∈ included)))
            (if isRoot then prefixes else prefixes ++ [if rest.isEmpty then "  " else "│ "])).2.dropLast)).1,
       (format_loop ops included isRoot rest
          ((format_loop ops included false
            (cs.filter (fun c => decide (ops.id c.node ∈ included)))
            (if isRoot then prefixes else prefixes ++ [if rest.isEmpty then "  " else "│ "])).2.dropLast)).2) := by
  rw [format_loop, if_pos h]

theorem format_loop_cons_skipped {included : List I} {isRoot : Bool} {n : N}
    {cs rest : Forest N} {prefixes : List String} (h : ops.id n ∉ included) :
    format_loop ops included isRoot (Tree.mk n cs :: rest) prefixes =
      format_loop ops included isRoot rest prefixes := by
  rw [format_loop, if_neg h]

theorem render_all_loop_nil (isRoot : Bool) (prefixes : List String) :
    render_all_loop ops isRoot ([] : Forest N) prefixes = [] := by
  rw [render_all_loop]

theorem render_all_loop_cons (isRoot : Bool) (n : N) (cs rest : Forest N)
    (prefixes : List String) :
    render_all_loop ops isRoot (Tree.mk n cs :: rest) prefixes =
      (ops.id n, format_line ops isRoot rest.isEmpty (!cs.isEmpty) prefixes n) ::
        (render_all_loop ops false cs
          (if isRoot then prefixes else prefixes ++ [if rest.isEmpty then "  " else "│ "]) ++
         render_all_loop ops isRoot rest prefixes) := by
  rw [render_all_loop]

/-- When every node of the forest is in the included set, the filtering
renderer produces exactly the unfiltered render and restores the prefix
stack. -/
theorem format_loop_all_included (included : List I) :
    ∀ (isRoot : Bool) (ts : Forest N) (prefixes : List String),
      (∀ t, TreeMemF t ts → ops.id t.node ∈ included) →
      (isRoot = true → prefixes = []) →
      format_loop ops included isRoot
          (ts.filter (fun t => decide (ops.id t.node ∈ included))) prefixes =
        (render_all_loop ops isRoot ts prefixes, prefixes) := by
  intro isRoot ts prefixes
  induction isRoot, ts, prefixes using render_all_loop.induct ops with
  | case1 isRoot prefixes =>
    intro _ _
    simp [format_loop_nil, render_all_loop_nil]
  | case2 isRoot n cs rest prefixes ihcs ihrest =>
    intro hinc hroot
    have hheadn : ops.id n ∈ included := by
      have := hinc (Tree.mk n cs) (Or.inl (Or.inl rfl))
      simpa [Tree.node] using this
    have hcs : ∀ t, TreeMemF t cs → ops.id t.node ∈ included :=
      fun t htm => hinc t (Or.inl (Or.inr htm))
    have hrs : ∀ t, TreeMemF t rest → ops.id t.node ∈ included :=
      fun t htm => hinc t (Or.inr htm)
    have hrest : rest.filter (fun t => decide (ops.id t.node ∈ included)) = rest := by
      rw [List.filter_eq_self]
      intro t htmem
      simp only [decide_eq_true_eq]
      exact hinc _ (Or.inr (TreeMemF.of_mem htmem))
    rw [List.filter_cons, if_pos (by simp [Tree.node, hheadn]), hrest,
      format_loop_cons_included ops hheadn, render_all_loop_cons]
    cases isRoot with
    | false =>
      have ihsub := ihcs hcs (by simp)
      have ihrest' := ihrest hrs hroot
      rw [hrest] at ihrest'
      simp only [Bool.false_eq_true, if_false, dite_eq_ite] at ihsub ⊢
      rw [ihsub, List.dropLast_concat, ihrest']
      rfl
    | true =>
      have hpre := hroot rfl
      subst hpre
      have ihsub := ihcs hcs (by simp)
      have ihrest' := ihrest hrs hroot
      rw [hrest] at ihrest'
      simp only [dite_eq_ite, if_true, eq_self_iff_true] at ihsub ⊢
      rw [ihsub, List.dropLast_nil, ihrest']
      rfl

end RenderLemmas

/-- C4: rendering with an always-true predicate produces exactly the
unfiltered render of the same (accumulated, sorted) forest. -/
theorem always_true_filter_is_identity {N I : Type} [DecidableEq I]
    (ops : NodeOps N I) (f : Forest N) :
    format_processes ops f (fun _ => true) = render_unfiltered ops f := by
  unfold format_processes format_helper render_unfiltered
  rw [format_loop_all_included]
  · intro t ht
    exact filter_helper_all_true ops (fun _ => true) (fun _ => rfl) f false [] t ht
  · intro _
    rfl

/-! ## The included set characterised (for C5) -/

section FilterWitness

variable {N I : Type} [DecidableEq I] (ops : NodeOps N I) (pred : N → Bool)

/-- A `true` `any_child_included` result exhibits an included top-level
sibling. -/
theorem filter_helper_any_witness :
    ∀ (ts : Forest N) (flag : Bool) (inc : List I),
      (filter_helper ops pred ts flag inc).2 = true →
      ∃ c ∈ ts, ops.id c.node ∈ (filter_helper ops pred ts flag inc).1 := by
  intro ts flag inc
  induction ts, flag, inc using filter_helper.induct ops pred with
  | case1 flag inc =>
    intro hb
    exact absurd hb (by simp [filter_helper])
  | case2 n cs rest flag inc hcond ih1 ih2 =>
    intro _
    refine ⟨Tree.mk n cs, List.mem_cons_self _ _, ?_⟩
    simp only [filter_helper, hcond, if_pos, Tree.node]
    exact filter_helper_mono ops pred _ _ _ _
      (filter_helper_mono ops pred _ _ _ _ (mem_insertId_self _ _))
  | case3 n cs rest flag inc hcond hb ih1 ih2 =>
    intro _
    refine ⟨Tree.mk n cs, List.mem_cons_self _ _, ?_⟩
    simp only [filter_helper, hcond, Tree.node]
    rw [if_neg (by simp [hcond]), if_pos hb]
    exact filter_helper_mono ops pred _ _ _ _ (mem_insertId_self _ _)
  | case4 n cs rest flag inc hcond hb ih1 ih2 =>
    intro hbool
    have hb2 : (filter_helper ops pred rest flag
        (filter_helper ops pred cs false inc).1).2 = true := by
      have : filter_helper ops pred (Tree.mk n cs :: rest) flag inc =
          filter_helper ops pred rest flag (filter_helper ops pred cs false inc).1 := by
        simp only [filter_helper, hcond]
        rw [if_neg (by simp [hcond]), if_neg (by simp [hb])]
      rw [this] at hbool
      exact hbool
    rcases ih2 hb2 with ⟨c, hc, hcm⟩
    refine ⟨c, List.mem_cons_of_mem _ hc, ?_⟩
    simp only [filter_helper, hcond]
    rw [if_neg (by simp [hcond]), if_neg (by simp [hb])]
    exact hcm

/-- Every identifier in the included set that was not there already belongs
to some subtree occurrence of the forest, and that occurrence either has no
children at all or has some child in the included set. -/
theorem filter_helper_mem_witness :
    ∀ (ts : Forest N) (flag : Bool) (inc : List I), ∀ x,
      x ∈ (filter_helper ops pred ts flag inc).1 →
      x ∈ inc ∨ ∃ t, TreeMemF t ts ∧ ops.id t.node = x ∧
        (t.children = [] ∨
          ∃ c ∈ t.children, ops.id c.node ∈ (filter_helper ops pred ts flag inc).1) := by
  intro ts flag inc
  induction ts, flag, inc using filter_helper.induct ops pred with
  | case1 flag inc =>
    intro x hx
    exact Or.inl (by simpa [filter_helper] using hx)
  | case2 n cs rest flag inc hcond ih1 ih2 =>
    intro x hx
    have hres : (filter_helper ops pred (Tree.mk n cs :: rest) flag inc).1 =
        (filter_helper ops pred rest flag
          (filter_helper ops pred cs true (insertId (ops.id n) inc)).1).1 := by
      simp [filter_helper, hcond]
    rw [hres] at hx ⊢
    rcases ih2 x hx with hx2 | ⟨t, htm, hid, hch⟩
    · rcases ih1 x hx2 with hx1 | ⟨t, htm, hid, hch⟩
      · rcases (mem_insertId_iff x (ops.id n) inc).mp hx1 with hxn | hxi
        · subst hxn
          refine Or.inr ⟨Tree.mk n cs, Or.inl (Or.inl rfl), by simp [Tree.node], ?_⟩
          cases cs with
          | nil => exact Or.inl (by simp [Tree.children])
          | cons c0 cs' =>
            refine Or.inr ⟨c0, by simp [Tree.children], ?_⟩
            exact filter_helper_mono ops pred _ _ _ _
              (filter_helper_flag_true ops pred (c0 :: cs') true _ rfl c0
                (TreeMemF.of_mem (List.mem_cons_self _ _)))
        · exact Or.inl hxi
      · refine Or.inr ⟨t, Or.inl (Or.inr htm), hid, ?_⟩
        rcases hch with hch | ⟨c, hc, hcm⟩
        · exact Or.inl hch
        · exact Or.inr ⟨c, hc, filter_helper_mono ops pred _ _ _ _ hcm⟩
    · exact Or.inr ⟨t, Or.inr htm, hid, hch⟩
  | case3 n cs rest flag inc hcond hb ih1 ih2 =>
    intro x hx
    have hres : (filter_helper ops pred (Tree.mk n cs :: rest) flag inc).1 =
        (filter_helper ops pred rest flag
          (insertId (ops.id n) (filter_helper ops pred cs false inc).1)).1 := by
      simp only [filter_helper, hcond]
      rw [if_neg (by simp [hcond]), if_pos hb]
    rw [hres] at hx ⊢
    rcases ih2 x hx with hx2 | ⟨t, htm, hid, hch⟩
    · rcases (mem_insertId_iff x (ops.id n) _).mp hx2 with hxn | hxi
      · subst hxn
        refine Or.inr ⟨Tree.mk n cs, Or.inl (Or.inl rfl), by simp [Tree.node], ?_⟩
        rcases filter_helper_any_witness ops pred cs false inc hb with ⟨c, hc, hcm⟩
        refine Or.inr ⟨c, by simpa [Tree.children] using hc, ?_⟩
        exact filter_helper_mono ops pred _ _ _ _ (mem_insertId_of_mem _ hcm)
      · rcases ih1 x hxi with hx1 | ⟨t, htm, hid, hch⟩
        · exact Or.inl hx1
        · refine Or.inr ⟨t, Or.inl (Or.inr htm), hid, ?_⟩
          rcases hch with hch | ⟨c, hc, hcm⟩
          · exact Or.inl hch
          · exact Or.inr ⟨c, hc, filter_helper_mono ops pred _ _ _ _
              (mem_insertId_of_mem _ hcm)⟩
    · exact Or.inr ⟨t, Or.inr htm, hid, hch⟩
  | case4 n cs rest flag inc hcond hb ih1 ih2 =>
    intro x hx
    have hres : (filter_helper ops pred (Tree.mk n cs :: rest) flag inc).1 =
        (filter_helper ops pred rest flag
          (filter_helper ops pred cs false inc).1).1 := by
      simp only [filter_helper, hcond]
      rw [if_neg (by simp [hcond]), if_neg (by simp [hb])]
    rw [hres] at hx ⊢
    rcases ih2 x hx with hx2 | ⟨t, htm, hid, hch⟩
    · rcases ih1 x hx2 with hx1 | ⟨t, htm, hid, hch⟩
      · exact Or.inl hx1
      · refine Or.inr ⟨t, Or.inl (Or.inr htm), hid, ?_⟩
        rcases hch with hch | ⟨c, hc, hcm⟩
        · exact Or.inl hch
        · exact Or.inr ⟨c, hc, filter_helper_mono ops pred _ _ _ _ hcm⟩
    · exact Or.inr ⟨t, Or.inr htm, hid, hch⟩

end FilterWitness

/-! ## Uniqueness of subtree occurrences when identifiers are distinct -/

mutual

theorem uniq_TreeMemT {N I : Type} [DecidableEq I] (ops : NodeOps N I) :
    ∀ (m t s : Tree N), ((m.allNodesT).map ops.id).Nodup →
      TreeMemT t m → TreeMemT s m → ops.id t.node = ops.id s.node → t = s
  | Tree.mk n cs, t, s, hnd, ht, hs, heq => by
    rw [Tree.allNodesT] at hnd
    simp only [List.map_cons, List.nodup_cons] at hnd
    obtain ⟨hn1, hn2⟩ := hnd
    cases ht with
    | inl ht =>
      cases hs with
      | inl hs =>
        rw [ht, hs]
      | inr hs =>
        exfalso
        apply hn1
        rw [ht] at heq
        simp only [Tree.node] at heq
        rw [heq]
        exact List.mem_map_of_mem ops.id (TreeMemF.node_memF hs)
    | inr ht =>
      cases hs with
      | inl hs =>
        exfalso
        apply hn1
        rw [hs] at heq
        simp only [Tree.node] at heq
        rw [← heq]
        exact List.mem_map_of_mem ops.id (TreeMemF.node_memF ht)
      | inr hs =>
        exact uniq_TreeMemF ops cs t s hn2 ht hs heq

theorem uniq_TreeMemF {N I : Type} [DecidableEq I] (ops : NodeOps N I) :
    ∀ (ts : Forest N) (t s : Tree N), ((allNodesF ts).map ops.id).Nodup →
      TreeMemF t ts → TreeMemF s ts → ops.id t.node = ops.id s.node → t = s
  | m :: rest, t, s, hnd, ht, hs, heq => by
    rw [allNodesF] at hnd
    rw [List.map_append, List.nodup_append] at hnd
    obtain ⟨hnd1, hnd2, hdisj⟩ := hnd
    cases ht with
    | inl ht =>
      cases hs with
      | inl hs =>
        exact uniq_TreeMemT ops m t s hnd1 ht hs heq
      | inr hs =>
        exfalso
        apply hdisj (List.mem_map_of_mem ops.id (TreeMemT.node_memT ht))
        rw [heq]
        exact List.mem_map_of_mem ops.id (TreeMemF.node_memF hs)
    | inr ht =>
      cases hs with
      | inl hs =>
        exfalso
        apply hdisj (List.mem_map_of_mem ops.id (TreeMemT.node_memT hs))
        rw [← heq]
        exact List.mem_map_of_mem ops.id (TreeMemF.node_memF ht)
      | inr hs =>
        exact uniq_TreeMemF ops rest t s hnd2 ht hs heq

end

/-! ## C5: the marker glyph is governed by included children -/

section SpecRender

variable {N I : Type} [DecidableEq I] (ops : NodeOps N I)

theorem format_spec_loop_nil (included : List I) (isRoot : Bool) (prefixes : List String) :
    format_spec_loop ops included isRoot ([] : Forest N) prefixes = ([], prefixes) := by
  rw [format_spec_loop]

theorem format_spec_loop_cons_included {included : List I} {isRoot : Bool} {n : N}
    {cs rest : Forest N} {prefixes : List String} (h : ops.id n ∈ included) :
    format_spec_loop ops included isRoot (Tree.mk n cs :: rest) prefixes =
      ((ops.id n, format_line ops isRoot rest.isEmpty
          (cs.any (fun c => decide (ops.id c.node ∈ included))) prefixes n) ::
        (format_spec_loop ops included false
          (cs.filter (fun c => decide (ops.id c.node ∈ included)))
          (if isRoot then prefixes else prefixes ++ [if rest.isEmpty then "  " else "│ "])).1 ++
        (format_spec_loop ops included isRoot rest
          ((format_spec_loop ops included false
            (cs.filter (fun c => decide (ops.id c.node ∈ included)))
            (if isRoot then prefixes else prefixes ++ [if rest.isEmpty then "  " else "│ "])).2.dropLast)).1,
       (format_spec_loop ops included isRoot rest
          ((format_spec_loop ops included false
            (cs.filter (fun c => decide (ops.id c.node ∈ included)))
            (if isRoot then prefixes else prefixes ++ [if rest.isEmpty then "  " else "│ "])).2.dropLast)).2) := by
  rw [format_spec_loop, if_pos h]

theorem format_spec_loop_cons_skipped {included : List I} {isRoot : Bool} {n : N}
    {cs rest : Forest N} {prefixes : List String} (h : ops.id n ∉ included) :
    format_spec_loop ops included isRoot (Tree.mk n cs :: rest) prefixes =
      format_spec_loop ops included isRoot rest prefixes := by
  rw [format_spec_loop, if_neg h]

/-- On any sibling list in which every included subtree occurrence has raw
children exactly when it has an included child, the code renderer and the
spec renderer agree. -/
theorem format_loop_eq_spec (included : List I) :
    ∀ (isRoot : Bool) (lst : Forest N) (prefixes : List String),
      (∀ t, TreeMemF t lst → ops.id t.node ∈ included →
        (!t.children.isEmpty) = t.children.any (fun c => decide (ops.id c.node ∈ included))) →
      format_loop ops included isRoot lst prefixes =
        format_spec_loop ops included isRoot lst prefixes := by
  intro isRoot lst prefixes
  induction isRoot, lst, prefixes using format_loop.induct ops included with
  | case1 isRoot prefixes =>
    intro _
    rw [format_loop_nil, format_spec_loop_nil]
  | case2 isRoot n cs rest prefixes hmem ihcs ihrest =>
    intro hmark
    have hcs : ∀ t, TreeMemF t (cs.filter (fun c => decide (ops.id c.node ∈ included))) →
        ops.id t.node ∈ included →
        (!t.children.isEmpty) = t.children.any (fun c => decide (ops.id c.node ∈ included)) :=
      fun t htm => hmark t (Or.inl (Or.inr (TreeMemF.of_filter htm)))
    have hrs : ∀ t, TreeMemF t rest → ops.id t.node ∈ included →
        (!t.children.isEmpty) = t.children.any (fun c => decide (ops.id c.node ∈ included)) :=
      fun t htm => hmark t (Or.inr htm)
    have hline : (!cs.isEmpty) = cs.any (fun c => decide (ops.id c.node ∈ included)) := by
      have := hmark (Tree.mk n cs) (Or.inl (Or.inl rfl)) (by simpa [Tree.node] using hmem)
      simpa [Tree.children] using this
    simp only [dite_eq_ite] at ihcs ihrest
    rw [format_loop_cons_included ops hmem, format_spec_loop_cons_included ops hmem]
    rw [ihrest hrs, ihcs hcs, hline]
  | case3 isRoot n cs rest prefixes hmem ihrest =>
    intro hmark
    have hrs : ∀ t, TreeMemF t rest → ops.id t.node ∈ included →
        (!t.children.isEmpty) = t.children.any (fun c => decide (ops.id c.node ∈ included)) :=
      fun t htm => hmark t (Or.inr htm)
    rw [format_loop_cons_skipped ops hmem, format_spec_loop_cons_skipped ops hmem]
    exact ihrest hrs

end SpecRender

/-- C5: in the rendered output of a forest with pairwise-distinct node
identifiers, the `└─`/`├─` glyph is chosen by last position among the
*included* siblings (the renderer walks the included-filtered sibling list),
and the `┬`/`─` marker is equivalent to "has at least one included child":
the code renderer coincides with the spec renderer that uses the
included-children rule. -/
theorem render_marker_included_children {N I : Type} [DecidableEq I]
    (ops : NodeOps N I) (f : Forest N) (pred : N → Bool)
    (hnodup : (forest_ids ops f).Nodup) :
    format_processes ops f pred = format_spec_processes ops f pred := by
  unfold format_processes format_helper format_spec_processes
  rw [format_loop_eq_spec]
  intro t htm hmem
  have htf : TreeMemF t f := TreeMemF.of_filter htm
  rcases filter_helper_mem_witness ops pred f false [] (ops.id t.node) hmem with
    hfalse | ⟨t', ht'm, ht'id, hch⟩
  · exact absurd hfalse (by simp)
  · have hts : t' = t := uniq_TreeMemF ops f t' t hnodup ht'm htf ht'id
    subst hts
    rcases hch with hempty | ⟨c, hc, hcm⟩
    · rw [hempty]
      simp
    · cases hcseq : t'.children with
      | nil =>
        rw [hcseq] at hc
        cases hc
      | cons c0 cs' =>
        rw [← hcseq]
        have : t'.children.any (fun c => decide (ops.id c.node ∈ filter_ids ops pred f)) = true := by
          rw [List.any_eq_true]
          exact ⟨c, hc, by simpa [filter_ids] using hcm⟩
        rw [this, hcseq]
        simp

/-- Witness for C5 on a two-node chain with distinct identifiers and the
predicate matching only id 2. -/
theorem render_marker_included_children_witness :
    (forest_ids test_node_ops
      [Tree.mk ⟨1, none, 0⟩ [Tree.mk ⟨2, some 1, 0⟩ []]]).Nodup ∧
    format_processes test_node_ops
        [Tree.mk ⟨1, none, 0⟩ [Tree.mk ⟨2, some 1, 0⟩ []]]
        (fun n => decide (n.id = 2)) =
      format_spec_processes test_node_ops
        [Tree.mk ⟨1, none, 0⟩ [Tree.mk ⟨2, some 1, 0⟩ []]]
        (fun n => decide (n.id = 2)) :=
  ⟨by simp [forest_ids, allNodesF, Tree.allNodesT, test_node_ops],
   render_marker_included_children test_node_ops
     [Tree.mk ⟨1, none, 0⟩ [Tree.mk ⟨2, some 1, 0⟩ []]]
     (fun n => decide (n.id = 2))
     (by simp [forest_ids, allNodesF, Tree.allNodesT, test_node_ops])⟩

/-! ## Association-list map lemmas -/

section AMapLemmas

variable {I A : Type} [DecidableEq I]

theorem amLookup_nil (k : I) : amLookup ([] : AMap I A) k = none := rfl

theorem amLookup_cons (e : I × A) (m : AMap I A) (k : I) :
    amLookup (e :: m) k = if e.1 = k then some e.2 else amLookup m k := by
  by_cases h : e.1 = k
  · rw [amLookup, List.find?_cons_of_pos _ (by simp [h]), if_pos h]
    rfl
  · rw [amLookup, List.find?_cons_of_neg _ (by simp [h]), if_neg h]
    rfl

theorem amErase_cons_eq (e : I × A) (m : AMap I A) (k : I) (h : e.1 = k) :
    amErase (e :: m) k = amErase m k := by
  rw [amErase, List.filter_cons, show (decide ¬(e.1 = k)) = false by simp [h]]
  rw [if_neg (by simp)]
  rfl

theorem amErase_cons_ne (e : I × A) (m : AMap I A) (k : I) (h : ¬ (e.1 = k)) :
    amErase (e :: m) k = e :: amErase m k := by
  rw [amErase, List.filter_cons, show (decide ¬(e.1 = k)) = true by simp [h]]
  rw [if_pos rfl]
  rfl

theorem amLookup_erase (m : AMap I A) (k k' : I) :
    amLookup (amErase m k) k' = if k' = k then none else amLookup m k' := by
  induction m with
  | nil => simp [amLookup, amErase]
  | cons e rest ih =>
    by_cases hek : e.1 = k
    · rw [amErase_cons_eq e rest k hek, ih, amLookup_cons]
      by_cases hk' : k' = k
      · rw [if_pos hk', if_pos hk']
      · rw [if_neg hk', if_neg hk',
          if_neg (by rw [hek]; exact fun h => hk' h.symm)]
    · rw [amErase_cons_ne e rest k hek, amLookup_cons, ih, amLookup_cons]
      by_cases hk' : k' = k
      · rw [if_pos hk', if_pos hk',
          if_neg (by rw [hk']; exact hek)]
      · rw [if_neg hk', if_neg hk']

theorem amLookup_insert (m : AMap I A) (k : I) (v : A) (k' : I) :
    amLookup (amInsert m k v) k' = if k' = k then some v else amLookup m k' := by
  rw [amInsert, amLookup_cons]
  by_cases h : k' = k
  · rw [if_pos h.symm, if_pos h]
  · rw [if_neg (fun he => h he.symm), if_neg h, amLookup_erase, if_neg h]

theorem amErase_sublist (m : AMap I A) (k : I) : (amErase m k).Sublist m :=
  List.filter_sublist m

theorem amLookup_mem {m : AMap I A} {k : I} {v : A} (h : amLookup m k = some v) :
    (k, v) ∈ m := by
  rw [amLookup] at h
  rcases Option.map_eq_some'.mp h with ⟨e, he, hev⟩
  have h1 := List.find?_some he
  have h2 := List.mem_of_find?_eq_some he
  simp only [decide_eq_true_eq] at h1
  have : e = (k, v) := by
    cases e with
    | mk a b =>
      simp only at h1 hev
      rw [h1, hev]
  rw [← this]
  exact h2

theorem amLookup_eq_none {m : AMap I A} {k : I} :
    amLookup m k = none ↔ ∀ e ∈ m, ¬ (e.1 = k) := by
  rw [amLookup, Option.map_eq_none', List.find?_eq_none]
  constructor
  · intro h e he
    simpa using h e he
  · intro h e he
    simpa using h e he

theorem amErase_eq_self_of_none {m : AMap I A} {k : I} (h : amLookup m k = none) :
    amErase m k = m := by
  rw [amErase, List.filter_eq_self]
  intro e he
  simpa using amLookup_eq_none.mp h e he

theorem amErase_length_lt {m : AMap I A} {k : I} {v : A} (h : amLookup m k = some v) :
    (amErase m k).length < m.length := by
  have hmem : (k, v) ∈ m := amLookup_mem h
  rcases List.append_of_mem hmem with ⟨A1, B1, rfl⟩
  rw [amErase, List.filter_append, List.filter_cons,
    show (decide ¬(((k, v) : I × A).1 = k)) = false by simp]
  rw [if_neg (by simp)]
  rw [List.length_append, List.length_append, List.length_cons]
  have l1 := List.length_filter_le (fun e => decide ¬(e.1 = k)) A1
  have l2 := List.length_filter_le (fun e => decide ¬(e.1 = k)) B1
  omega

theorem amLookup_of_mem_nodup {m : AMap I A} {k : I} {v : A}
    (hnd : (amKeys m).Nodup) (hmem : (k, v) ∈ m) : amLookup m k = some v := by
  induction m with
  | nil => cases hmem
  | cons e rest ih =>
    rw [amKeys, List.map_cons, List.nodup_cons] at hnd
    rw [amLookup_cons]
    cases hmem with
    | head => simp
    | tail _ hmem =>
      have hek : ¬ (e.1 = k) := by
        intro hek
        apply hnd.1
        rw [hek]
        exact List.mem_map_of_mem (fun e => e.1) hmem
      rw [if_neg hek]
      exact ih hnd.2 hmem

theorem mem_flatten_of_mem_getD {cm : AMap I (List I)} {k v : I}
    (h : v ∈ (amLookup cm k).getD []) :
    v ∈ ((List.map Prod.snd cm).flatten : List I) := by
  cases hlk : amLookup cm k with
  | none => rw [hlk] at h; cases h
  | some l =>
    rw [hlk] at h
    simp only [Option.getD_some] at h
    rw [List.mem_flatten]
    exact ⟨l, List.mem_map_of_mem Prod.snd (amLookup_mem hlk), h⟩

theorem sublist_flatten {α : Type} {l1 l2 : List (List α)} (h : l1.Sublist l2) :
    l1.flatten.Sublist l2.flatten := by
  induction h with
  | slnil => exact List.Sublist.refl _
  | cons a _ ih =>
    rw [List.flatten_cons]
    exact ih.trans (List.sublist_append_right a _)
  | cons₂ a _ ih =>
    rw [List.flatten_cons, List.flatten_cons]
    exact List.Sublist.append_left ih a

theorem amDecomp {m : AMap I A} {k : I} {v : A} (h : amLookup m k = some v) :
    ∃ A1 B1, m = A1 ++ (k, v) :: B1 ∧ ∀ e ∈ A1, ¬ (e.1 = k) := by
  induction m with
  | nil => cases h
  | cons e rest ih =>
    rw [amLookup_cons] at h
    by_cases hek : e.1 = k
    · rw [if_pos hek] at h
      refine ⟨[], rest, ?_, by simp⟩
      cases e with
      | mk a b =>
        simp only at hek h
        rw [hek]
        injection h with h
        rw [h]
        simp
    · rw [if_neg hek] at h
      rcases ih h with ⟨A1, B1, heq, hA⟩
      refine ⟨e :: A1, B1, by rw [heq]; simp, ?_⟩
      intro e' he'
      cases he' with
      | head => exact hek
      | tail _ he' => exact hA e' he'

/-- Removing a key splits the flattened value lists: the flattened values of
the map are a permutation of the removed key's list followed by the rest. -/
theorem amErase_flatten_perm (cm : AMap I (List I)) (k : I)
    (hnd : (amKeys cm).Nodup) :
    ((List.map Prod.snd cm).flatten : List I).Perm
      (((amLookup cm k).getD []) ++ (List.map Prod.snd (amErase cm k)).flatten) := by
  cases hlk : amLookup cm k with
  | none =>
    rw [amErase_eq_self_of_none hlk]
    simp
  | some l =>
    rcases amDecomp hlk with ⟨A1, B1, heq, hA⟩
    have hB : ∀ e ∈ B1, ¬ (e.1 = k) := by
      intro e he hek
      rw [heq, amKeys, List.map_append, List.map_cons] at hnd
      rcases List.nodup_append.mp hnd with ⟨_, hnd2, _⟩
      rw [List.nodup_cons] at hnd2
      apply hnd2.1
      rw [← hek]
      exact List.mem_map_of_mem (fun e => e.1) he
    have herase : amErase cm k = A1 ++ B1 := by
      rw [heq, amErase, List.filter_append, List.filter_cons,
        show (decide ¬(((k, l) : I × List I).1 = k)) = false by simp]
      rw [if_neg (by simp)]
      rw [List.filter_eq_self.mpr (by intro e he; simpa using hA e he),
        List.filter_eq_self.mpr (by intro e he; simpa using hB e he)]
    rw [herase, heq]
    simp only [List.map_append, List.map_cons, List.flatten_append, List.flatten_cons,
      Option.getD_some]
    have hp1 : (((List.map Prod.snd A1).flatten ++ l) ++ (List.map Prod.snd B1).flatten).Perm
        ((l ++ (List.map Prod.snd A1).flatten) ++ (List.map Prod.snd B1).flatten) :=
      (List.perm_append_comm).append_right _
    rw [← List.append_assoc]
    exact hp1.trans (by rw [List.append_assoc])

end AMapLemmas

/-! ## mk_forest: structural facts -/

section MkForest

variable {N I : Type} [DecidableEq I] (ops : NodeOps N I)

/-- `mk_forest` only ever removes map entries: its output maps are sublists
of its input maps. -/
theorem mk_forest_sublist :
    ∀ (fuel : Nat) (nm : AMap I N) (cm : AMap I (List I)) (roots : List I)
      (f : Forest N) (nm' : AMap I N) (cm' : AMap I (List I)),
      mk_forest ops fuel nm cm roots = some (f, nm', cm') →
      nm'.Sublist nm ∧ cm'.Sublist cm := by
  intro fuel nm cm roots
  induction fuel, nm, cm, roots using mk_forest.induct ops with
  | case1 fuel nm cm =>
    intro f nm' cm' h
    rw [mk_forest] at h
    injection h with h
    injection h with h1 h
    injection h with h2 h3
    subst h2
    subst h3
    exact ⟨List.Sublist.refl _, List.Sublist.refl _⟩
  | case2 fuel nm cm root rest hlk =>
    intro f nm' cm' h
    rw [mk_forest, hlk] at h
    cases h
  | case3 nm cm root rest node hlk =>
    intro f nm' cm' h
    rw [mk_forest, hlk] at h
    dsimp only at h
    cases h
  | case4 fuel nm cm root rest node hlk hfuel hcall ih =>
    intro f nm' cm' h
    rw [mk_forest, hlk] at h
    dsimp only at h
    rw [if_neg hfuel, hcall] at h
    cases h
  | case5 fuel nm cm root rest node hlk hfuel cf nm2 cm2 hcall hrest ih1 ih2 =>
    intro f nm' cm' h
    rw [mk_forest, hlk] at h
    dsimp only at h
    rw [if_neg hfuel, hcall] at h
    dsimp only at h
    rw [hrest] at h
    cases h
  | case6 fuel nm cm root rest node hlk hfuel cf nm2 cm2 hcall rf nm3 cm3 hrest ih1 ih2 =>
    intro f nm' cm' h
    rw [mk_forest, hlk] at h
    dsimp only at h
    rw [if_neg hfuel, hcall] at h
    dsimp only at h
    rw [hrest] at h
    injection h with h
    injection h with h1 h
    injection h with h2 h3
    subst h2
    subst h3
    obtain ⟨hnm1, hcm1⟩ := ih1 cf nm2 cm2 hcall
    obtain ⟨hnm2, hcm2⟩ := ih2 rf nm3 cm3 hrest
    exact ⟨hnm2.trans (hnm1.trans (amErase_sublist nm root)),
      hcm2.trans (hcm1.trans (amErase_sublist cm root))⟩

theorem forest_ids_nil : forest_ids ops ([] : Forest N) = [] := by
  simp [forest_ids, allNodesF]

theorem forest_ids_cons (n : N) (cf rf : Forest N) :
    forest_ids ops (Tree.mk n cf :: rf) =
      ops.id n :: (forest_ids ops cf ++ forest_ids ops rf) := by
  simp [forest_ids, allNodesF, Tree.allNodesT]

/-- The invariant of a `mk_forest` call descends to the children call. -/
theorem step_hyps_children {fuel : Nat} {nm : AMap I N} {cm : AMap I (List I)}
    {root : I} {rest : List I} {node : N}
    (H : MkForestHyps ops fuel nm cm (root :: rest))
    (hlk : amLookup nm root = some node) (hfuel : ¬ fuel = 0) :
    MkForestHyps ops (fuel - 1) (amErase nm root) (amErase cm root)
      ((amLookup cm root).getD []) := by
  obtain ⟨H2, H1, H3, H4, H5, H6⟩ := H
  rcases List.nodup_append.mp H2 with ⟨Hroots, Hflat, Hdisj⟩
  have hperm := amErase_flatten_perm cm root H5
  have hcc : (((amLookup cm root).getD []) ++
      (List.map Prod.snd (amErase cm root)).flatten).Nodup :=
    hperm.nodup_iff.mp Hflat
  have hchsub : ∀ v ∈ (amLookup cm root).getD [],
      v ∈ (List.map Prod.snd cm).flatten := fun v hv => mem_flatten_of_mem_getD hv
  have hcm1sub : ∀ v ∈ (List.map Prod.snd (amErase cm root)).flatten,
      v ∈ (List.map Prod.snd cm).flatten := fun v hv =>
    (sublist_flatten (List.Sublist.map Prod.snd (amErase_sublist cm root))).mem hv
  have hrootflat : root ∉ (List.map Prod.snd cm).flatten :=
    Hdisj (List.mem_cons_self root rest)
  refine ⟨hcc, ?_, ?_, ?_, ?_, ?_⟩
  · intro r hr
    have hrflat := hchsub r hr
    have hrne : ¬ (r = root) := fun h => hrootflat (h ▸ hrflat)
    rw [amLookup_erase, if_neg hrne]
    exact H3 r hrflat
  · intro v hv
    have hvflat := hcm1sub v hv
    have hvne : ¬ (v = root) := fun h => hrootflat (h ▸ hvflat)
    rw [amLookup_erase, if_neg hvne]
    exact H3 v hvflat
  · have := amErase_length_lt hlk
    omega
  · have hsubk : (amKeys (amErase cm root)).Sublist (amKeys cm) :=
      (amErase_sublist cm root).map (fun e => e.1)
    exact hsubk.nodup H5
  · intro k n hkn
    rw [amLookup_erase] at hkn
    by_cases hk : k = root
    · rw [if_pos hk] at hkn
      cases hkn
    · rw [if_neg hk] at hkn
      exact H6 k n hkn

/-- After a successful children call, the invariant holds for the remaining
roots on the shrunken maps. -/
theorem step_hyps_rest {fuel : Nat} {nm nm2 : AMap I N} {cm cm2 : AMap I (List I)}
    {root : I} {rest : List I} {node : N} {cf : Forest N}
    (H : MkForestHyps ops fuel nm cm (root :: rest))
    (hlk : amLookup nm root = some node)
    (hsubnm : nm2.Sublist (amErase nm root)) (hsubcm : cm2.Sublist (amErase cm root))
    (C : MkForestConcl ops (amErase nm root) (amErase cm root)
      ((amLookup cm root).getD []) cf nm2 cm2) :
    MkForestHyps ops fuel nm2 cm2 rest := by
  obtain ⟨H2, H1, H3, H4, H5, H6⟩ := H
  obtain ⟨C1, C2, C3, C4, C5, C6, C8, C9⟩ := C
  rcases List.nodup_append.mp H2 with ⟨Hroots, Hflat, Hdisj⟩
  have hchsub : ∀ v ∈ (amLookup cm root).getD [],
      v ∈ (List.map Prod.snd cm).flatten := fun v hv => mem_flatten_of_mem_getD hv
  have hcm1sub : ∀ v ∈ (List.map Prod.snd (amErase cm root)).flatten,
      v ∈ (List.map Prod.snd cm).flatten := fun v hv =>
    (sublist_flatten (List.Sublist.map Prod.snd (amErase_sublist cm root))).mem hv
  have hcm2sub1 : ∀ v ∈ (List.map Prod.snd cm2).flatten,
      v ∈ (List.map Prod.snd (amErase cm root)).flatten := fun v hv =>
    (sublist_flatten (List.Sublist.map Prod.snd hsubcm)).mem hv
  have hrootflat : root ∉ (List.map Prod.snd cm).flatten :=
    Hdisj (List.mem_cons_self root rest)
  have hSsub : ∀ x ∈ forest_ids ops cf,
      x ∈ (List.map Prod.snd cm).flatten := by
    intro x hx
    refine C9 (fun y => y ∈ (List.map Prod.snd cm).flatten) ?_ ?_ x hx
    · exact fun r hr => hchsub r hr
    · intro k l hkl hk v hv
      apply hcm1sub
      rw [List.mem_flatten]
      exact ⟨l, List.mem_map_of_mem Prod.snd (amLookup_mem hkl), hv⟩
  have hkeys2 : (amKeys cm2).Nodup := by
    have hsubk : (amKeys cm2).Sublist (amKeys cm) :=
      (hsubcm.trans (amErase_sublist cm root)).map (fun e => e.1)
    exact hsubk.nodup H5
  have hnm1look : ∀ v, v ∈ (List.map Prod.snd cm).flatten →
      (amLookup (amErase nm root) v).isSome := by
    intro v hv
    have hvne : ¬ (v = root) := fun h => hrootflat (h ▸ hv)
    rw [amLookup_erase, if_neg hvne]
    exact H3 v hv
  refine ⟨?_, ?_, ?_, ?_, ?_, ?_⟩
  · rw [List.nodup_append]
    refine ⟨(List.nodup_cons.mp Hroots).2, ?_, ?_⟩
    · exact ((sublist_flatten (List.Sublist.map Prod.snd
        (hsubcm.trans (amErase_sublist cm root)))).nodup) Hflat
    · intro a ha hafl
      exact Hdisj (List.mem_cons_of_mem root ha) (hcm1sub a (hcm2sub1 a hafl))
  · intro r hr
    have hrS : r ∉ forest_ids ops cf := by
      intro hrS
      exact Hdisj (List.mem_cons_of_mem root hr) (hSsub r hrS)
    rw [C1, if_neg hrS]
    have hrne : ¬ (r = root) := by
      intro h
      rw [List.nodup_cons] at Hroots
      exact Hroots.1 (h ▸ hr)
    rw [amLookup_erase, if_neg hrne]
    exact H1 r (List.mem_cons_of_mem root hr)
  · intro v hv
    rcases List.mem_flatten.mp hv with ⟨l, hl, hvl⟩
    rcases List.mem_map.mp hl with ⟨e, he, hel⟩
    have hlook2 : amLookup cm2 e.1 = some l := by
      apply amLookup_of_mem_nodup hkeys2
      have hpair : (e.1, e.2) = e := by cases e; rfl
      rw [← hel, hpair]
      exact he
    have hvS : v ∉ forest_ids ops cf := C8 e.1 l hlook2 v hvl
    rw [C1, if_neg hvS]
    exact hnm1look v (hcm1sub v (hcm2sub1 v hv))
  · have := (hsubnm.trans (amErase_sublist nm root)).length_le
    omega
  · exact hkeys2
  · intro k n hkn
    rw [C1] at hkn
    by_cases hkS : k ∈ forest_ids ops cf
    · rw [if_pos hkS] at hkn
      cases hkn
    · rw [if_neg hkS] at hkn
      rw [amLookup_erase] at hkn
      by_cases hk : k = root
      · rw [if_pos hk] at hkn
        cases hkn
      · rw [if_neg hk] at hkn
        exact H6 k n hkn

/-- Combining the children-call and rest-call guarantees into the guarantee
for the whole call. -/
theorem step_concl {fuel : Nat} {nm nm2 nm3 : AMap I N} {cm cm2 cm3 : AMap I (List I)}
    {root : I} {rest : List I} {node : N} {cf rf : Forest N}
    (H : MkForestHyps ops fuel nm cm (root :: rest))
    (hlk : amLookup nm root = some node)
    (hsubnm : nm2.Sublist (amErase nm root)) (hsubcm : cm2.Sublist (amErase cm root))
    (Ca : MkForestConcl ops (amErase nm root) (amErase cm root)
      ((amLookup cm root).getD []) cf nm2 cm2)
    (Cb : MkForestConcl ops nm2 cm2 rest rf nm3 cm3) :
    MkForestConcl ops nm cm (root :: rest) (Tree.mk node cf :: rf) nm3 cm3 := by
  obtain ⟨H2, H1, H3, H4, H5, H6⟩ := H
  obtain ⟨Ca1, Ca2, Ca3, Ca4, Ca5, Ca6, Ca8, Ca9⟩ := Ca
  obtain ⟨Cb1, Cb2, Cb3, Cb4, Cb5, Cb6, Cb8, Cb9⟩ := Cb
  rcases List.nodup_append.mp H2 with ⟨Hroots, Hflat, Hdisj⟩
  have hchsub : ∀ v ∈ (amLookup cm root).getD [],
      v ∈ (List.map Prod.snd cm).flatten := fun v hv => mem_flatten_of_mem_getD hv
  have hrootflat : root ∉ (List.map Prod.snd cm).flatten :=
    Hdisj (List.mem_cons_self root rest)
  have hidnode : ops.id node = root := H6 root node hlk
  have hidsF : forest_ids ops (Tree.mk node cf :: rf) =
      root :: (forest_ids ops cf ++ forest_ids ops rf) := by
    rw [forest_ids_cons, hidnode]
  have hrootS : root ∉ forest_ids ops cf := by
    intro hmem
    have := Ca5 root hmem
    rw [amLookup_erase, if_pos rfl] at this
    cases this
  have hrootT : root ∉ forest_ids ops rf := by
    intro hmem
    have := Cb5 root hmem
    rw [Ca1 root] at this
    by_cases hS : root ∈ forest_ids ops cf
    · rw [if_pos hS] at this
      cases this
    · rw [if_neg hS, amLookup_erase, if_pos rfl] at this
      cases this
  have hST : ∀ x ∈ forest_ids ops cf, x ∉ forest_ids ops rf := by
    intro x hxS hxT
    have := Cb5 x hxT
    rw [Ca1 x, if_pos hxS] at this
    cases this
  have hmemF : ∀ k, k ∈ forest_ids ops (Tree.mk node cf :: rf) ↔
      (k = root ∨ k ∈ forest_ids ops cf ∨ k ∈ forest_ids ops rf) := by
    intro k
    rw [hidsF]
    simp [List.mem_cons, List.mem_append]
  have hcmlook : ∀ k, ¬ (k = root) → k ∉ forest_ids ops cf →
      amLookup cm2 k = amLookup cm k := by
    intro k hkr hkS
    rw [Ca2 k, if_neg hkS, amLookup_erase, if_neg hkr]
  have hnmlook : ∀ k, ¬ (k = root) → k ∉ forest_ids ops cf →
      amLookup nm2 k = amLookup nm k := by
    intro k hkr hkS
    rw [Ca1 k, if_neg hkS, amLookup_erase, if_neg hkr]
  refine ⟨?_, ?_, ?_, ?_, ?_, ?_, ?_, ?_⟩
  · intro k
    rw [Cb1 k, Ca1 k, amLookup_erase]
    by_cases h1 : k ∈ forest_ids ops rf
    · rw [if_pos h1, if_pos ((hmemF k).mpr (Or.inr (Or.inr h1)))]
    · rw [if_neg h1]
      by_cases h2 : k ∈ forest_ids ops cf
      · rw [if_pos h2, if_pos ((hmemF k).mpr (Or.inr (Or.inl h2)))]
      · rw [if_neg h2]
        by_cases h3 : k = root
        · rw [if_pos h3, if_pos ((hmemF k).mpr (Or.inl h3))]
        · rw [if_neg h3, if_neg (by
            intro hmem
            rcases (hmemF k).mp hmem with h | h | h
            · exact h3 h
            · exact h2 h
            · exact h1 h)]
  · intro k
    rw [Cb2 k, Ca2 k, amLookup_erase]
    by_cases h1 : k ∈ forest_ids ops rf
    · rw [if_pos h1, if_pos ((hmemF k).mpr (Or.inr (Or.inr h1)))]
    · rw [if_neg h1]
      by_cases h2 : k ∈ forest_ids ops cf
      · rw [if_pos h2, if_pos ((hmemF k).mpr (Or.inr (Or.inl h2)))]
      · rw [if_neg h2]
        by_cases h3 : k = root
        · rw [if_pos h3, if_pos ((hmemF k).mpr (Or.inl h3))]
        · rw [if_neg h3, if_neg (by
            intro hmem
            rcases (hmemF k).mp hmem with h | h | h
            · exact h3 h
            · exact h2 h
            · exact h1 h)]
  · rw [hidsF, List.nodup_cons, List.nodup_append]
    refine ⟨?_, Ca3, Cb3, fun a ha => hST a ha⟩
    intro hmem
    rcases List.mem_append.mp hmem with h | h
    · exact hrootS h
    · exact hrootT h
  · intro k hk v hv
    rcases (hmemF k).mp hk with h | h | h
    · subst h
      exact (hmemF v).mpr (Or.inr (Or.inl (Ca6 v hv)))
    · have hkr : ¬ (k = root) := fun he => hrootS (he ▸ h)
      have := Ca4 k h v (by rw [amLookup_erase, if_neg hkr]; exact hv)
      exact (hmemF v).mpr (Or.inr (Or.inl this))
    · have hkr : ¬ (k = root) := fun he => hrootT (he ▸ h)
      have hkS : k ∉ forest_ids ops cf := fun hkS => hST k hkS h
      have := Cb4 k h v (by rw [hcmlook k hkr hkS]; exact hv)
      exact (hmemF v).mpr (Or.inr (Or.inr this))
  · intro k hk
    rcases (hmemF k).mp hk with h | h | h
    · subst h
      rw [hlk]
      rfl
    · have hkr : ¬ (k = root) := fun he => hrootS (he ▸ h)
      have := Ca5 k h
      rw [amLookup_erase, if_neg hkr] at this
      exact this
    · have hkr : ¬ (k = root) := fun he => hrootT (he ▸ h)
      have hkS : k ∉ forest_ids ops cf := fun hkS => hST k hkS h
      have := Cb5 k h
      rw [hnmlook k hkr hkS] at this
      exact this
  · intro r hr
    cases hr with
    | head => exact (hmemF root).mpr (Or.inl rfl)
    | tail _ hr => exact (hmemF r).mpr (Or.inr (Or.inr (Cb6 r hr)))
  · intro k l hkl v hvl
    have hkT : k ∉ forest_ids ops rf := by
      intro hkT
      rw [Cb2 k, if_pos hkT] at hkl
      cases hkl
    have hkl2 : amLookup cm2 k = some l := by
      rw [Cb2 k, if_neg hkT] at hkl
      exact hkl
    have hkS : k ∉ forest_ids ops cf := by
      intro hkS
      rw [Ca2 k, if_pos hkS] at hkl2
      cases hkl2
    have hkl1 : amLookup (amErase cm root) k = some l := by
      rw [Ca2 k, if_neg hkS] at hkl2
      exact hkl2
    have hkr : ¬ (k = root) := by
      intro hkr
      rw [amLookup_erase, if_pos hkr] at hkl1
      cases hkl1
    have hklcm : amLookup cm k = some l := by
      rw [amLookup_erase, if_neg hkr] at hkl1
      exact hkl1
    have hvflat : v ∈ (List.map Prod.snd cm).flatten := by
      rw [List.mem_flatten]
      exact ⟨l, List.mem_map_of_mem Prod.snd (amLookup_mem hklcm), hvl⟩
    have hvr : ¬ (v = root) := fun he => hrootflat (he ▸ hvflat)
    have hvS : v ∉ forest_ids ops cf := Ca8 k l hkl2 v hvl
    have hvT : v ∉ forest_ids ops rf := Cb8 k l hkl v hvl
    intro hmem
    rcases (hmemF v).mp hmem with h | h | h
    · exact hvr h
    · exact hvS h
    · exact hvT h
  · intro R hR1 hR2 x hx
    have hRroot : R root := hR1 root (List.mem_cons_self root rest)
    have hRchildren : ∀ r ∈ (amLookup cm root).getD [], R r := by
      intro r hr
      cases hcmr : amLookup cm root with
      | none => rw [hcmr] at hr; cases hr
      | some l =>
        rw [hcmr] at hr
        exact hR2 root l hcmr hRroot r hr
    have hR2a : ∀ k l, amLookup (amErase cm root) k = some l → R k → ∀ v ∈ l, R v := by
      intro k l hkl hk
      rw [amLookup_erase] at hkl
      by_cases hkr : k = root
      · rw [if_pos hkr] at hkl
        cases hkl
      · rw [if_neg hkr] at hkl
        exact hR2 k l hkl hk
    rcases (hmemF x).mp hx with h | h | h
    · exact h ▸ hRroot
    · exact Ca9 R hRchildren hR2a x h
    · refine Cb9 R (fun r hr => hR1 r (List.mem_cons_of_mem root hr)) ?_ x h
      intro k l hkl hk
      have hkS : k ∉ forest_ids ops cf := by
        intro hkS
        rw [Ca2 k, if_pos hkS] at hkl
        cases hkl
      have hkl1 : amLookup (amErase cm root) k = some l := by
        rw [Ca2 k, if_neg hkS] at hkl
        exact hkl
      exact hR2a k l hkl1 hk

/-- The guarantee of a call on an empty root list. -/
theorem concl_nil (nm : AMap I N) (cm : AMap I (List I)) :
    MkForestConcl ops nm cm [] [] nm cm := by
  refine ⟨?_, ?_, ?_, ?_, ?_, ?_, ?_, ?_⟩
  · intro k
    rw [forest_ids_nil, if_neg (List.not_mem_nil k)]
  · intro k
    rw [forest_ids_nil, if_neg (List.not_mem_nil k)]
  · rw [forest_ids_nil]
    exact List.nodup_nil
  · intro k hk
    rw [forest_ids_nil] at hk
    cases hk
  · intro k hk
    rw [forest_ids_nil] at hk
    cases hk
  · intro r hr
    cases hr
  · intro k l hkl v hvl
    rw [forest_ids_nil]
    exact List.not_mem_nil v
  · intro R hR1 hR2 x hx
    rw [forest_ids_nil] at hx
    cases hx

/-- Master lemma: under the call invariant, `mk_forest` succeeds — the
`unwrap` can never panic — and its result satisfies the guarantee bundle. -/
theorem mk_forest_ok :
    ∀ (fuel : Nat) (nm : AMap I N) (cm : AMap I (List I)) (roots : List I),
      MkForestHyps ops fuel nm cm roots →
      ∃ f nm' cm', mk_forest ops fuel nm cm roots = some (f, nm', cm') ∧
        MkForestConcl ops nm cm roots f nm' cm' := by
  intro fuel nm cm roots
  induction fuel, nm, cm, roots using mk_forest.induct ops with
  | case1 fuel nm cm =>
    intro _
    exact ⟨[], nm, cm, by rw [mk_forest], concl_nil ops nm cm⟩
  | case2 fuel nm cm root rest hlk =>
    intro H
    have := H.2.1 root (List.mem_cons_self root rest)
    rw [hlk] at this
    cases this
  | case3 nm cm root rest node hlk =>
    intro H
    have h4 := H.2.2.2.1
    have hnil : nm = [] := List.length_eq_zero.mp (Nat.le_zero.mp h4)
    rw [hnil, amLookup_nil] at hlk
    cases hlk
  | case4 fuel nm cm root rest node hlk hfuel hcall ih =>
    intro H
    rcases ih (step_hyps_children ops H hlk hfuel) with ⟨f1, nm1, cm1, heq, _⟩
    rw [hcall] at heq
    cases heq
  | case5 fuel nm cm root rest node hlk hfuel cf nm2 cm2 hcall hrest ih1 ih2 =>
    intro H
    rcases ih1 (step_hyps_children ops H hlk hfuel) with ⟨f1, nm1, cm1, heq, Ca⟩
    rw [hcall] at heq
    injection heq with heq
    injection heq with he1 heq
    injection heq with he2 he3
    subst he1
    subst he2
    subst he3
    have hsub := mk_forest_sublist ops _ _ _ _ _ _ _ hcall
    rcases ih2 (step_hyps_rest ops H hlk hsub.1 hsub.2 Ca) with ⟨f2, nm2', cm2', heq2, _⟩
    rw [hrest] at heq2
    cases heq2
  | case6 fuel nm cm root rest node hlk hfuel cf nm2 cm2 hcall rf nm3 cm3 hrest ih1 ih2 =>
    intro H
    rcases ih1 (step_hyps_children ops H hlk hfuel) with ⟨f1, nm1, cm1, heq, Ca⟩
    rw [hcall] at heq
    injection heq with heq
    injection heq with he1 heq
    injection heq with he2 he3
    subst he1
    subst he2
    subst he3
    have hsub := mk_forest_sublist ops _ _ _ _ _ _ _ hcall
    rcases ih2 (step_hyps_rest ops H hlk hsub.1 hsub.2 Ca) with ⟨f2, nm2', cm2', heq2, Cb⟩
    rw [hrest] at heq2
    injection heq2 with heq2
    injection heq2 with hf1 heq2
    injection heq2 with hf2 hf3
    subst hf1
    subst hf2
    subst hf3
    refine ⟨Tree.mk node cf :: rf, nm3, cm3, ?_, ?_⟩
    · rw [mk_forest, hlk]
      dsimp only
      rw [if_neg hfuel, hcall]
      dsimp only
      rw [hrest]
    · exact step_concl ops H hlk hsub.1 hsub.2 Ca Cb

end MkForest

/-! ## The map-building loop of new_forest -/

section BuildMaps

variable {N I : Type} [DecidableEq I] (ops : NodeOps N I)

theorem not_mem_amKeys_amErase {A : Type} (m : AMap I A) (k : I) :
    k ∉ amKeys (amErase m k) := by
  intro hmem
  rcases List.mem_map.mp hmem with ⟨e, he, hek⟩
  have := List.of_mem_filter he
  simp only [decide_eq_true_eq] at this
  exact this hek

theorem amKeys_insert_nodup {A : Type} (m : AMap I A) (k : I) (v : A)
    (h : (amKeys m).Nodup) : (amKeys (amInsert m k v)).Nodup := by
  rw [amInsert]
  rw [show amKeys ((k, v) :: amErase m k) = k :: amKeys (amErase m k) from rfl]
  rw [List.nodup_cons]
  exact ⟨not_mem_amKeys_amErase m k,
    ((amErase_sublist m k).map (fun e => e.1)).nodup h⟩

theorem new_forest_loop_lookup :
    ∀ (input : List N) (nm : AMap I N) (cm : AMap I (List I)) (roots : List I) (k : I),
      (amLookup (new_forest_loop ops input (nm, cm, roots)).1 k).isSome ↔
        ((amLookup nm k).isSome ∨ k ∈ input.map ops.id) := by
  intro input
  induction input with
  | nil =>
    intro nm cm roots k
    simp [new_forest_loop]
  | cons node rest ih =>
    intro nm cm roots k
    cases hpar : ops.parent node with
    | some parent =>
      rw [new_forest_loop, hpar]
      rw [ih]
      rw [amLookup_insert]
      by_cases hk : k = ops.id node
      · simp [hk]
      · rw [if_neg hk]
        simp only [List.map_cons, List.mem_cons]
        constructor
        · rintro (h | h)
          · exact Or.inl h
          · exact Or.inr (Or.inr h)
        · rintro (h | h | h)
          · exact Or.inl h
          · exact absurd h hk
          · exact Or.inr h
    | none =>
      rw [new_forest_loop, hpar]
      rw [ih]
      rw [amLookup_insert]
      by_cases hk : k = ops.id node
      · simp [hk]
      · rw [if_neg hk]
        simp only [List.map_cons, List.mem_cons]
        constructor
        · rintro (h | h)
          · exact Or.inl h
          · exact Or.inr (Or.inr h)
        · rintro (h | h | h)
          · exact Or.inl h
          · exact absurd h hk
          · exact Or.inr h

theorem new_forest_loop_roots :
    ∀ (input : List N) (nm : AMap I N) (cm : AMap I (List I)) (roots : List I) (r : I),
      r ∈ (new_forest_loop ops input (nm, cm, roots)).2.2 ↔
        (r ∈ roots ∨ ∃ n ∈ input, ops.parent n = none ∧ ops.id n = r) := by
  intro input
  induction input with
  | nil =>
    intro nm cm roots r
    simp [new_forest_loop]
  | cons node rest ih =>
    intro nm cm roots r
    cases hpar : ops.parent node with
    | some parent =>
      rw [new_forest_loop, hpar, ih]
      constructor
      · rintro (h | ⟨n, hn, hp, hid⟩)
        · exact Or.inl h
        · exact Or.inr ⟨n, List.mem_cons_of_mem node hn, hp, hid⟩
      · rintro (h | ⟨n, hn, hp, hid⟩)
        · exact Or.inl h
        · cases hn with
          | head =>
            rw [hpar] at hp
            cases hp
          | tail _ hn => exact Or.inr ⟨n, hn, hp, hid⟩
    | none =>
      rw [new_forest_loop, hpar, ih]
      constructor
      · rintro (h | ⟨n, hn, hp, hid⟩)
        · rcases List.mem_append.mp h with h | h
          · exact Or.inl h
          · have hre := List.mem_singleton.mp h
            exact Or.inr ⟨node, List.mem_cons_self node rest, hpar, hre.symm⟩
        · exact Or.inr ⟨n, List.mem_cons_of_mem node hn, hp, hid⟩
      · rintro (h | ⟨n, hn, hp, hid⟩)
        · exact Or.inl (List.mem_append_left _ h)
        · cases hn with
          | head => exact Or.inl (List.mem_append_right _ (by simp [hid]))
          | tail _ hn => exact Or.inr ⟨n, hn, hp, hid⟩

theorem new_forest_loop_children :
    ∀ (input : List N) (nm : AMap I N) (cm : AMap I (List I)) (roots : List I) (p v : I),
      v ∈ (amLookup (new_forest_loop ops input (nm, cm, roots)).2.1 p).getD [] ↔
        (v ∈ (amLookup cm p).getD [] ∨ ∃ n ∈ input, ops.parent n = some p ∧ ops.id n = v) := by
  intro input
  induction input with
  | nil =>
    intro nm cm roots p v
    simp [new_forest_loop]
  | cons node rest ih =>
    intro nm cm roots p v
    cases hpar : ops.parent node with
    | some parent =>
      rw [new_forest_loop, hpar, ih]
      rw [amLookup_insert]
      by_cases hp : p = parent
      · subst hp
        rw [if_pos rfl]
        simp only [Option.getD_some, List.mem_append, List.mem_singleton]
        constructor
        · rintro ((h | h) | ⟨n, hn, hq, hid⟩)
          · exact Or.inl h
          · exact Or.inr ⟨node, List.mem_cons_self node rest, hpar, h.symm⟩
          · exact Or.inr ⟨n, List.mem_cons_of_mem node hn, hq, hid⟩
        · rintro (h | ⟨n, hn, hq, hid⟩)
          · exact Or.inl (Or.inl h)
          · cases hn with
            | head =>
              exact Or.inl (Or.inr hid.symm)
            | tail _ hn => exact Or.inr ⟨n, hn, hq, hid⟩
      · rw [if_neg hp]
        constructor
        · rintro (h | ⟨n, hn, hq, hid⟩)
          · exact Or.inl h
          · exact Or.inr ⟨n, List.mem_cons_of_mem node hn, hq, hid⟩
        · rintro (h | ⟨n, hn, hq, hid⟩)
          · exact Or.inl h
          · cases hn with
            | head =>
              rw [hpar] at hq
              injection hq with hq
              exact absurd hq.symm hp
            | tail _ hn => exact Or.inr ⟨n, hn, hq, hid⟩
    | none =>
      rw [new_forest_loop, hpar, ih]
      constructor
      · rintro (h | ⟨n, hn, hq, hid⟩)
        · exact Or.inl h
        · exact Or.inr ⟨n, List.mem_cons_of_mem node hn, hq, hid⟩
      · rintro (h | ⟨n, hn, hq, hid⟩)
        · exact Or.inl h
        · cases hn with
          | head =>
            rw [hpar] at hq
            cases hq
          | tail _ hn => exact Or.inr ⟨n, hn, hq, hid⟩

theorem new_forest_loop_keys_nodup :
    ∀ (input : List N) (nm : AMap I N) (cm : AMap I (List I)) (roots : List I),
      (amKeys cm).Nodup →
      (amKeys (new_forest_loop ops input (nm, cm, roots)).2.1).Nodup := by
  intro input
  induction input with
  | nil =>
    intro nm cm roots h
    simpa [new_forest_loop] using h
  | cons node rest ih =>
    intro nm cm roots h
    cases hpar : ops.parent node with
    | some parent =>
      rw [new_forest_loop, hpar]
      exact ih _ _ _ (amKeys_insert_nodup cm parent _ h)
    | none =>
      rw [new_forest_loop, hpar]
      exact ih _ _ _ h

theorem new_forest_loop_perm :
    ∀ (input : List N) (nm : AMap I N) (cm : AMap I (List I)) (roots : List I),
      (amKeys cm).Nodup →
      ((new_forest_loop ops input (nm, cm, roots)).2.2 ++
        (List.map Prod.snd (new_forest_loop ops input (nm, cm, roots)).2.1).flatten).Perm
      ((roots ++ (List.map Prod.snd cm).flatten) ++ input.map ops.id) := by
  intro input
  induction input with
  | nil =>
    intro nm cm roots h
    simp [new_forest_loop]
  | cons node rest ih =>
    intro nm cm roots h
    cases hpar : ops.parent node with
    | some parent =>
      rw [new_forest_loop, hpar]
      refine (ih _ _ _ (amKeys_insert_nodup cm parent _ h)).trans ?_
      have hsplit := amErase_flatten_perm cm parent h
      have hflat : ((List.map Prod.snd
          (amInsert cm parent ((amLookup cm parent).getD [] ++ [ops.id node]))).flatten :
            List I).Perm
          ((List.map Prod.snd cm).flatten ++ [ops.id node]) := by
        rw [amInsert]
        rw [show List.map Prod.snd
            (((parent, (amLookup cm parent).getD [] ++ [ops.id node])) :: amErase cm parent) =
            ((amLookup cm parent).getD [] ++ [ops.id node]) ::
              List.map Prod.snd (amErase cm parent) from rfl]
        rw [List.flatten_cons]
        have h1 : (((amLookup cm parent).getD [] ++ [ops.id node]) ++
            (List.map Prod.snd (amErase cm parent)).flatten).Perm
            (((amLookup cm parent).getD [] ++
              (List.map Prod.snd (amErase cm parent)).flatten) ++ [ops.id node]) := by
          rw [List.append_assoc, List.append_assoc]
          exact List.Perm.append_left _ List.perm_append_comm
        exact h1.trans (List.Perm.append_right _ hsplit.symm)
      refine (List.Perm.append_right (List.map ops.id rest)
        (List.Perm.append_left roots hflat)).trans ?_
      have heq : (roots ++ ((List.map Prod.snd cm).flatten ++ [ops.id node])) ++
          List.map ops.id rest =
          (roots ++ (List.map Prod.snd cm).flatten) ++ List.map ops.id (node :: rest) := by
        simp [List.append_assoc]
      rw [heq]
    | none =>
      rw [new_forest_loop, hpar]
      refine (ih _ _ _ h).trans ?_
      have heq : ((roots ++ [ops.id node]) ++ (List.map Prod.snd cm).flatten) ++
          List.map ops.id rest =
          roots ++ ([ops.id node] ++ ((List.map Prod.snd cm).flatten ++
            List.map ops.id rest)) := by
        simp [List.append_assoc]
      rw [heq]
      have heq2 : (roots ++ (List.map Prod.snd cm).flatten) ++ List.map ops.id (node :: rest) =
          roots ++ ((List.map Prod.snd cm).flatten ++ ([ops.id node] ++
            List.map ops.id rest)) := by
        simp [List.append_assoc]
      rw [heq2]
      refine List.Perm.append_left roots ?_
      have h3 : ([ops.id node] ++ ((List.map Prod.snd cm).flatten ++
          List.map ops.id rest)).Perm
          (((List.map Prod.snd cm).flatten ++ List.map ops.id rest) ++ [ops.id node]) :=
        List.perm_append_comm
      refine h3.trans ?_
      rw [List.append_assoc]
      refine List.Perm.append_left _ ?_
      exact List.perm_append_comm

theorem new_forest_loop_id_keyed :
    ∀ (input : List N) (nm : AMap I N) (cm : AMap I (List I)) (roots : List I),
      (∀ k n, amLookup nm k = some n → ops.id n = k) →
      (∀ k n, amLookup (new_forest_loop ops input (nm, cm, roots)).1 k = some n →
        ops.id n = k) := by
  intro input
  induction input with
  | nil =>
    intro nm cm roots h
    simpa [new_forest_loop] using h
  | cons node rest ih =>
    intro nm cm roots h
    have hins : ∀ k n, amLookup (amInsert nm (ops.id node) node) k = some n →
        ops.id n = k := by
      intro k n hkn
      rw [amLookup_insert] at hkn
      by_cases hk : k = ops.id node
      · rw [if_pos hk] at hkn
        injection hkn with hkn
        rw [← hkn, hk]
      · rw [if_neg hk] at hkn
        exact h k n hkn
    cases hpar : ops.parent node with
    | some parent =>
      rw [new_forest_loop, hpar]
      exact ih _ _ _ hins
    | none =>
      rw [new_forest_loop, hpar]
      exact ih _ _ _ hins

theorem new_forest_loop_length :
    ∀ (input : List N) (nm : AMap I N) (cm : AMap I (List I)) (roots : List I),
      (new_forest_loop ops input (nm, cm, roots)).1.length ≤ nm.length + input.length := by
  intro input
  induction input with
  | nil =>
    intro nm cm roots
    simp [new_forest_loop]
  | cons node rest ih =>
    intro nm cm roots
    have hins : (amInsert nm (ops.id node) node).length ≤ nm.length + 1 := by
      rw [amInsert, List.length_cons]
      have := (amErase_sublist nm (ops.id node)).length_le
      omega
    cases hpar : ops.parent node with
    | some parent =>
      rw [new_forest_loop, hpar]
      dsimp only
      rw [List.length_cons]
      have h2 := ih (amInsert nm (ops.id node) node)
        (amInsert cm parent ((amLookup cm parent).getD [] ++ [ops.id node])) roots
      omega
    | none =>
      rw [new_forest_loop, hpar]
      dsimp only
      rw [List.length_cons]
      have h2 := ih (amInsert nm (ops.id node) node) cm (roots ++ [ops.id node])
      omega

end BuildMaps

/-! ## Identifier preservation through accumulation and sorting -/

section IdsPreserved

variable {N I : Type} [DecidableEq I] (ops : NodeOps N I)

/-- Folding metric accumulation into a node never changes its identifier
when the accumulator preserves identifiers (as `Node::accumulate_from`
does in both implementations). -/
theorem foldl_accumulate_id (hacc : ∀ a b, ops.id (ops.accumulateFrom a b) = ops.id a) :
    ∀ (l : List (Tree N)) (n : N),
      ops.id (l.foldl (fun acc c => ops.accumulateFrom acc c.node) n) = ops.id n := by
  intro l
  induction l with
  | nil => intro n; rfl
  | cons c rest ih =>
    intro n
    rw [List.foldl_cons, ih, hacc]

/-- `compute_accumulate` keeps the identifier list of a forest unchanged. -/
theorem compute_accumulate_ids (hacc : ∀ a b, ops.id (ops.accumulateFrom a b) = ops.id a) :
    ∀ f : Forest N, forest_ids ops (compute_accumulate ops f) = forest_ids ops f := by
  intro f
  induction f using compute_accumulate.induct ops with
  | case1 => rw [compute_accumulate]
  | case2 n cs rest ih1 ih2 =>
    rw [compute_accumulate, forest_ids_cons, forest_ids_cons,
      foldl_accumulate_id ops hacc, ih1, ih2]

/-- The identifier list of a forest is the concatenation of the per-tree
identifier lists. -/
theorem forest_ids_flatten :
    ∀ f : Forest N,
      forest_ids ops f = (f.map (fun t => (Tree.allNodesT t).map ops.id)).flatten := by
  intro f
  induction f with
  | nil => rfl
  | cons t rest ih =>
    simp only [List.map_cons, List.flatten_cons, ← ih, forest_ids, allNodesF,
      List.map_append]

/-- Flattening pointwise-permuted blocks yields permuted flattenings. -/
theorem flatten_map_perm {a b : Type} (g h : a → List b) :
    ∀ l : List a, (∀ x ∈ l, (g x).Perm (h x)) →
      ((l.map g).flatten).Perm ((l.map h).flatten) := by
  intro l
  induction l with
  | nil => intro _; exact List.Perm.refl _
  | cons x rest ih =>
    intro hp
    rw [List.map_cons, List.map_cons, List.flatten_cons, List.flatten_cons]
    exact (hp x (List.mem_cons_self x rest)).append
      (ih fun y hy => hp y (List.mem_cons_of_mem x hy))

/-- `sort_forest` permutes the identifier list of a forest. -/
theorem sort_forest_ids :
    ∀ (k : Nat) (f : Forest N), sizeOf f ≤ k →
      (forest_ids ops (sort_forest ops f)).Perm (forest_ids ops f) := by
  intro k
  induction k with
  | zero =>
    intro f hle
    cases f with
    | nil =>
      rw [sort_forest_nil]
    | cons t rest =>
      exfalso
      rw [List.cons.sizeOf_spec] at hle
      omega
  | succ k ih =>
    intro f hle
    rw [sort_forest_eval ops f, forest_ids_flatten, forest_ids_flatten, List.map_map]
    have hpt : ∀ t ∈ f.insertionSort (fun a b => ops.cmp a.node b.node ≠ Ordering.gt),
        (((fun t => (Tree.allNodesT t).map ops.id) ∘
          (fun t => Tree.mk t.node (sort_forest ops t.children))) t).Perm
        ((Tree.allNodesT t).map ops.id) := by
      intro t ht
      have htf : t ∈ f := (List.perm_insertionSort _ f).mem_iff.mp ht
      have hlt : sizeOf t < sizeOf f := List.sizeOf_lt_of_mem htf
      cases t with
      | mk n cs =>
        have hcs : sizeOf cs ≤ k := by
          rw [Tree.mk.sizeOf_spec] at hlt
          omega
        have hperm := ih cs hcs
        simp only [forest_ids] at hperm
        simp only [Function.comp, Tree.allNodesT, Tree.node, Tree.children, List.map_cons]
        exact hperm.cons (ops.id n)
    refine (flatten_map_perm _ _ _ hpt).trans ?_
    exact ((List.perm_insertionSort _ f).map _).flatten

end IdsPreserved

/-! ## Which identifiers end up in the built forest -/

section ReachFacts

variable {N I : Type} [DecidableEq I] (ops : NodeOps N I)

/-- Inversion of `ReachableId`: a reachable identifier belongs to an input
record that is a root or has a reachable parent. -/
theorem reach_inv {input : List N} {x : I} (h : ReachableId ops input x) :
    ∃ n ∈ input, ops.id n = x ∧
      (ops.parent n = none ∨ ∃ q, ops.parent n = some q ∧ ReachableId ops input q) := by
  cases h with
  | isRoot n hn hpn => exact ⟨n, hn, rfl, Or.inl hpn⟩
  | step n q hn hpn hq => exact ⟨n, hn, rfl, Or.inr ⟨q, hpn, hq⟩⟩

/-- With an unreachable parent identifier, every identifier of the record's
parent-chain subtree is unreachable as well. -/
theorem IdDesc_not_reach {input : List N}
    (hinj : ∀ m ∈ input, ∀ n ∈ input, ops.id m = ops.id n → m = n)
    {a : N} {p : I} (ha : a ∈ input) (hp : ops.parent a = some p)
    (hunreach : ¬ ReachableId ops input p) :
    ∀ x, IdDesc ops input (ops.id a) x → ¬ ReachableId ops input x := by
  intro x hdesc
  induction hdesc with
  | refl =>
    intro hr
    rcases reach_inv ops hr with ⟨n, hn, hid, hcase⟩
    have hna : n = a := hinj n hn a ha hid
    subst hna
    rcases hcase with hnone | ⟨q, hq, hrq⟩
    · rw [hp] at hnone
      cases hnone
    · rw [hp] at hq
      injection hq with hq
      subst hq
      exact hunreach hrq
  | step n q hn hpn hdq ih =>
    intro hr
    rcases reach_inv ops hr with ⟨m, hm, hid, hcase⟩
    have hmn : m = n := hinj m hm n hn hid
    subst hmn
    rcases hcase with hnone | ⟨r, hrq, hrr⟩
    · rw [hpn] at hnone
      cases hnone
    · rw [hpn] at hrq
      injection hrq with hrq
      subst hrq
      exact ih hrr

/-- The initial map-building pass and a successful `mk_forest` admit the
`MkForestHyps` invariant whenever the input identifiers are pairwise
distinct. -/
theorem mk_hyps_of_loop {input : List N} (hnodup : (input.map ops.id).Nodup)
    {nm : AMap I N} {cm : AMap I (List I)} {roots : List I}
    (hst : new_forest_loop ops input ([], [], []) = (nm, cm, roots)) :
    MkForestHyps ops (input.length + 1) nm cm roots := by
  have hlook : ∀ k, k ∈ input.map ops.id → (amLookup nm k).isSome := by
    intro k hk
    have h2 := new_forest_loop_lookup ops input [] [] [] k
    rw [hst] at h2
    exact h2.mpr (Or.inr hk)
  have hkeys : (amKeys cm).Nodup := by
    have h5 := new_forest_loop_keys_nodup ops input [] [] [] List.nodup_nil
    rw [hst] at h5
    exact h5
  refine ⟨?_, ?_, ?_, ?_, hkeys, ?_⟩
  · have hp := new_forest_loop_perm ops input [] [] [] List.nodup_nil
    rw [hst] at hp
    simp only [List.map_nil, List.flatten_nil, List.nil_append] at hp
    exact hp.nodup_iff.mpr hnodup
  · intro r hr
    have h1 := new_forest_loop_roots ops input [] [] [] r
    rw [hst] at h1
    rcases h1.mp hr with h | ⟨n, hn, _, hid⟩
    · exact absurd h (List.not_mem_nil r)
    · exact hlook r (hid ▸ List.mem_map_of_mem ops.id hn)
  · intro v hv
    rcases List.mem_flatten.mp hv with ⟨l, hl, hvl⟩
    rcases List.mem_map.mp hl with ⟨e, he, hsnd⟩
    subst hsnd
    have hlkp : amLookup cm e.1 = some e.2 := amLookup_of_mem_nodup hkeys he
    have h3 := new_forest_loop_children ops input [] [] [] e.1 v
    rw [hst] at h3
    have hvp : v ∈ (amLookup cm e.1).getD [] := by
      rw [hlkp]
      exact hvl
    rcases h3.mp hvp with h | ⟨n, hn, _, hid⟩
    · exact absurd h (List.not_mem_nil v)
    · exact hlook v (hid ▸ List.mem_map_of_mem ops.id hn)
  · have h4 := new_forest_loop_length ops input [] [] []
    rw [hst] at h4
    simp only [List.length_nil] at h4
    omega
  · have h6 := new_forest_loop_id_keyed ops input [] [] []
      (fun k n h => absurd h (by simp [amLookup]))
    rw [hst] at h6
    exact h6

/-- The identifiers of the forest assembled by `mk_forest` are exactly the
reachable input identifiers. -/
theorem forest_reach_iff {input : List N}
    {nm : AMap I N} {cm : AMap I (List I)} {roots : List I}
    (hst : new_forest_loop ops input ([], [], []) = (nm, cm, roots))
    {fb : Forest N} {nm2 : AMap I N} {cm2 : AMap I (List I)}
    (C : MkForestConcl ops nm cm roots fb nm2 cm2) :
    ∀ x, x ∈ forest_ids ops fb ↔ ReachableId ops input x := by
  intro x
  constructor
  · intro hx
    refine C.2.2.2.2.2.2.2 (ReachableId ops input) ?_ ?_ x hx
    · intro r hr
      have h1 := new_forest_loop_roots ops input [] [] [] r
      rw [hst] at h1
      rcases h1.mp hr with h | ⟨n, hn, hpn, hid⟩
      · exact absurd h (List.not_mem_nil r)
      · exact hid ▸ ReachableId.isRoot n hn hpn
    · intro p l hpl hrp v hv
      have h2 := new_forest_loop_children ops input [] [] [] p v
      rw [hst] at h2
      have hvp : v ∈ (amLookup cm p).getD [] := by
        rw [hpl]
        exact hv
      rcases h2.mp hvp with h | ⟨n, hn, hpn, hid⟩
      · exact absurd h (List.not_mem_nil v)
      · exact hid ▸ ReachableId.step n p hn hpn hrp
  · intro hr
    induction hr with
    | isRoot n hn hpn =>
      have h1 := new_forest_loop_roots ops input [] [] [] (ops.id n)
      rw [hst] at h1
      exact C.2.2.2.2.2.1 _ (h1.mpr (Or.inr ⟨n, hn, hpn, rfl⟩))
    | step n p hn hpn hp ih =>
      have h2 := new_forest_loop_children ops input [] [] [] p (ops.id n)
      rw [hst] at h2
      exact C.2.2.2.1 p ih _ (h2.mpr (Or.inr ⟨n, hn, hpn, rfl⟩))

/-- Master characterisation of `Forest::new_forest` for duplicate-free
inputs: it succeeds, the forest's identifiers are duplicate-free, and they
are exactly the reachable input identifiers. -/
theorem new_forest_master (input : List N)
    (hacc : ∀ a b, ops.id (ops.accumulateFrom a b) = ops.id a)
    (hnodup : (input.map ops.id).Nodup) :
    ∃ f, new_forest ops input = some f ∧ (forest_ids ops f).Nodup ∧
      ∀ x, x ∈ forest_ids ops f ↔ ReachableId ops input x := by
  rcases hst : new_forest_loop ops input ([], [], []) with ⟨nm, cm, roots⟩
  rcases mk_forest_ok ops (input.length + 1) nm cm roots
    (mk_hyps_of_loop ops hnodup hst) with ⟨fb, nm2, cm2, hmk, C⟩
  have hperm : (forest_ids ops (sort_forest ops (compute_accumulate ops fb))).Perm
      (forest_ids ops fb) := by
    have hs := sort_forest_ids ops (sizeOf (compute_accumulate ops fb))
      (compute_accumulate ops fb) le_rfl
    rw [compute_accumulate_ids ops hacc fb] at hs
    exact hs
  refine ⟨sort_forest ops (compute_accumulate ops fb), ?_, ?_, ?_⟩
  · rw [new_forest, hst]
    dsimp only
    rw [hmk]
  · exact hperm.nodup_iff.mpr C.2.2.1
  · intro x
    rw [hperm.mem_iff]
    exact forest_reach_iff ops hst C x

end ReachFacts

/-! ## Rendered lines only mention forest identifiers -/

section RenderIds

variable {N I : Type} [DecidableEq I] (ops : NodeOps N I)

/-- Every entry emitted by the rendering loop carries the identifier of some
subtree of the rendered forest. -/
theorem format_loop_mem_ids :
    ∀ (k : Nat) (ts : Forest N), sizeOf ts ≤ k →
      ∀ (included : List I) (isRoot : Bool) (prefixes : List String) (e : I × String),
        e ∈ (format_loop ops included isRoot ts prefixes).1 →
        ∃ t : Tree N, TreeMemF t ts ∧ ops.id t.node = e.1 := by
  intro k
  induction k with
  | zero =>
    intro ts hle included isRoot prefixes e he
    cases ts with
    | nil =>
      rw [format_loop_nil] at he
      exact absurd he (List.not_mem_nil e)
    | cons t rest =>
      exfalso
      rw [List.cons.sizeOf_spec] at hle
      omega
  | succ k ih =>
    intro ts hle included isRoot prefixes e he
    cases ts with
    | nil =>
      rw [format_loop_nil] at he
      exact absurd he (List.not_mem_nil e)
    | cons t rest =>
      cases t with
      | mk n cs =>
        have hsz : sizeOf cs ≤ k ∧ sizeOf rest ≤ k := by
          rw [List.cons.sizeOf_spec, Tree.mk.sizeOf_spec] at hle
          omega
        by_cases hin : ops.id n ∈ included
        · rw [format_loop_cons_included ops hin] at he
          rcases List.mem_cons.mp he with he | he
          · exact ⟨Tree.mk n cs, Or.inl (Or.inl rfl), by rw [he]; rfl⟩
          · rcases List.mem_append.mp he with he | he
            · have hszf : sizeOf (cs.filter
                  (fun c => decide (ops.id c.node ∈ included))) ≤ k :=
                Nat.le_trans (sizeOf_filter_le _ cs) hsz.1
              rcases ih _ hszf included false _ e he with ⟨t, ht, hid⟩
              exact ⟨t, Or.inl (Or.inr (TreeMemF.of_filter ht)), hid⟩
            · rcases ih rest hsz.2 included isRoot _ e he with ⟨t, ht, hid⟩
              exact ⟨t, Or.inr ht, hid⟩
        · rw [format_loop_cons_skipped ops hin] at he
          rcases ih rest hsz.2 included isRoot _ e he with ⟨t, ht, hid⟩
          exact ⟨t, Or.inr ht, hid⟩

/-- Every line of `format_processes` is labelled with an identifier of the
rendered forest. -/
theorem format_processes_ids (f : Forest N) (pred : N → Bool) (e : I × String)
    (he : e ∈ format_processes ops f pred) : e.1 ∈ forest_ids ops f := by
  rw [format_processes, format_helper] at he
  rcases format_loop_mem_ids ops
      (sizeOf (f.filter (fun t => decide (ops.id t.node ∈ filter_ids ops pred f))))
      _ le_rfl _ true [] e he with ⟨t, ht, hid⟩
  rw [← hid]
  exact List.mem_map_of_mem ops.id (TreeMemF.node_memF (TreeMemF.of_filter ht))

end RenderIds

/-! ## C10, C1 and C6: the forest built by `new_forest` -/

/-- C10: for every input record sequence with pairwise-distinct identifiers,
forest construction never panics — every identifier taken from the root
list or from a children list is still present in the node map when it is
looked up, so the `unwrap` inside `mk_forest` (modelled as the `none`
outcome of `new_forest`) never fires. -/
theorem new_forest_never_panics {N I : Type} [DecidableEq I] (ops : NodeOps N I)
    (input : List N) (hnodup : (input.map ops.id).Nodup) :
    (new_forest ops input).isSome := by
  rcases hst : new_forest_loop ops input ([], [], []) with ⟨nm, cm, roots⟩
  rcases mk_forest_ok ops (input.length + 1) nm cm roots
    (mk_hyps_of_loop ops hnodup hst) with ⟨fb, nm2, cm2, hmk, -⟩
  rw [new_forest, hst]
  dsimp only
  rw [hmk]
  rfl

theorem new_forest_never_panics_witness :
    ((([⟨1, none, 2⟩, ⟨2, some 1, 3⟩] : List TestNode).map test_node_ops.id).Nodup) ∧
    (new_forest test_node_ops [⟨1, none, 2⟩, ⟨2, some 1, 3⟩]).isSome :=
  ⟨by decide,
    new_forest_never_panics test_node_ops [⟨1, none, 2⟩, ⟨2, some 1, 3⟩] (by decide)⟩

/-- C1 (corrected): for every input record sequence with pairwise-distinct
identifiers, the built forest contains each identifier in at most one node
(its identifier list is duplicate-free), and it contains exactly the
identifiers of the records reachable from a root through the parent chain.
The literal claim — every input identifier appears — fails for records
whose parent chain never reaches a root (see the counterexample). -/
theorem each_reachable_id_exactly_once {N I : Type} [DecidableEq I] (ops : NodeOps N I)
    (input : List N)
    (hacc : ∀ a b, ops.id (ops.accumulateFrom a b) = ops.id a)
    (hnodup : (input.map ops.id).Nodup) :
    ∃ f, new_forest ops input = some f ∧ (forest_ids ops f).Nodup ∧
      ∀ x, x ∈ forest_ids ops f ↔ ReachableId ops input x :=
  new_forest_master ops input hacc hnodup

theorem each_reachable_id_exactly_once_witness :
    (∀ a b : TestNode, test_node_ops.id (test_node_ops.accumulateFrom a b) =
      test_node_ops.id a) ∧
    ((([⟨1, none, 2⟩, ⟨2, some 1, 3⟩] : List TestNode).map test_node_ops.id).Nodup) ∧
    (∃ f, new_forest test_node_ops [⟨1, none, 2⟩, ⟨2, some 1, 3⟩] = some f ∧
      (forest_ids test_node_ops f).Nodup ∧
      ∀ x, x ∈ forest_ids test_node_ops f ↔
        ReachableId test_node_ops [⟨1, none, 2⟩, ⟨2, some 1, 3⟩] x) :=
  ⟨fun a b => rfl, by decide,
    each_reachable_id_exactly_once test_node_ops [⟨1, none, 2⟩, ⟨2, some 1, 3⟩]
      (fun a b => rfl) (by decide)⟩

set_option maxRecDepth 4000 in
set_option maxHeartbeats 1000000 in
/-- C1, counterexample to the literal claim: the single input record with
identifier 1 and parent identifier 2 (which belongs to no record) has
pairwise-distinct identifiers, yet `new_forest` succeeds with the empty
forest — identifier 1 is present in the input and lost from the forest. -/
theorem identifier_lost_counterexample :
    ((([⟨1, some 2, 0⟩] : List TestNode).map test_node_ops.id).Nodup) ∧
    new_forest test_node_ops [⟨1, some 2, 0⟩] = some [] ∧
    (1 : Nat) ∈ ([⟨1, some 2, 0⟩] : List TestNode).map test_node_ops.id ∧
    (1 : Nat) ∉ forest_ids test_node_ops ([] : Forest TestNode) := by
  refine ⟨by decide, ?_, by decide, by decide⟩
  simp +decide [new_forest, new_forest_loop, mk_forest, amLookup, amErase, amInsert,
    compute_accumulate, sort_forest_nil, sort_forest_cons, List.insertionSort,
    List.orderedInsert, Tree.node, Tree.children, test_node_ops]

/-- C6: an input record whose parent identifier is present but equals no
identifier reachable from a root is dropped together with its entire
subtree: none of those identifiers occurs in the built forest, and none
labels any line rendered by `format_processes`, for every filter. -/
theorem orphan_subtrees_dropped {N I : Type} [DecidableEq I] (ops : NodeOps N I)
    (input : List N)
    (hacc : ∀ a b, ops.id (ops.accumulateFrom a b) = ops.id a)
    (hnodup : (input.map ops.id).Nodup)
    (a : N) (p : I) (ha : a ∈ input) (hp : ops.parent a = some p)
    (hunreach : ¬ ReachableId ops input p) :
    ∃ f, new_forest ops input = some f ∧
      ∀ x, IdDesc ops input (ops.id a) x →
        x ∉ forest_ids ops f ∧
        ∀ (pred : N → Bool), ∀ e ∈ format_processes ops f pred, e.1 ≠ x := by
  rcases new_forest_master ops input hacc hnodup with ⟨f, hf, -, hiff⟩
  refine ⟨f, hf, ?_⟩
  intro x hdesc
  have hnr : ¬ ReachableId ops input x :=
    IdDesc_not_reach ops (List.inj_on_of_nodup_map hnodup) ha hp hunreach x hdesc
  have hxf : x ∉ forest_ids ops f := fun hx => hnr ((hiff x).mp hx)
  refine ⟨hxf, ?_⟩
  intro pred e he hex
  exact hxf (hex ▸ format_processes_ids ops f pred e he)

theorem orphan_subtrees_dropped_witness :
    (∀ a b : TestNode, test_node_ops.id (test_node_ops.accumulateFrom a b) =
      test_node_ops.id a) ∧
    ((([⟨1, none, 2⟩, ⟨2, some 9, 3⟩, ⟨3, some 2, 4⟩] : List TestNode).map
      test_node_ops.id).Nodup) ∧
    ((⟨2, some 9, 3⟩ : TestNode) ∈
      ([⟨1, none, 2⟩, ⟨2, some 9, 3⟩, ⟨3, some 2, 4⟩] : List TestNode)) ∧
    (test_node_ops.parent ⟨2, some 9, 3⟩ = some 9) ∧
    (¬ ReachableId test_node_ops [⟨1, none, 2⟩, ⟨2, some 9, 3⟩, ⟨3, some 2, 4⟩] 9) ∧
    (∃ f, new_forest test_node_ops [⟨1, none, 2⟩, ⟨2, some 9, 3⟩, ⟨3, some 2, 4⟩] =
        some f ∧
      ∀ x, IdDesc test_node_ops [⟨1, none, 2⟩, ⟨2, some 9, 3⟩, ⟨3, some 2, 4⟩]
          (test_node_ops.id ⟨2, some 9, 3⟩) x →
        x ∉ forest_ids test_node_ops f ∧
        ∀ (pred : TestNode → Bool), ∀ e ∈ format_processes test_node_ops f pred,
          e.1 ≠ x) := by
  have hnr : ¬ ReachableId test_node_ops
      [⟨1, none, 2⟩, ⟨2, some 9, 3⟩, ⟨3, some 2, 4⟩] 9 := by
    intro h
    rcases reach_inv test_node_ops h with ⟨n, hn, hid, -⟩
    simp only [List.mem_cons, List.not_mem_nil, or_false] at hn
    rcases hn with rfl | rfl | rfl <;> exact absurd hid (by decide)
  exact ⟨fun a b => rfl, by decide, by decide, rfl, hnr,
    orphan_subtrees_dropped test_node_ops [⟨1, none, 2⟩, ⟨2, some 9, 3⟩, ⟨3, some 2, 4⟩]
      (fun a b => rfl) (by decide) ⟨2, some 9, 3⟩ 9 (by decide) rfl hnr⟩

end Treetop
